import Mathlib

/-!
A verification development for the animezen MIDI scraper
(`src/Input/scraper.py`).

The scraper's string processing is embedded shallowly: Python strings are
modelled as `List Char` treated as byte strings (each `Char` holds one byte
value `< 256`; CPython's `urllib` percent machinery operates on UTF-8 bytes,
and on ASCII data — the case for URLs — the byte view coincides exactly with
CPython's `str` view).  The relevant parts of CPython's standard library
(`urllib.parse`, `posixpath`, the two `re` patterns the scraper uses) are
transcribed from the CPython 3.11 sources, specialised to how the scraper
calls them (`allow_fragments=True`, base URL `https://animezen.net`).

The download loop is modelled as a state machine over an explicit filesystem
(content of the destination path and of the sibling `.part` path) driven by a
network oracle giving each attempt's behaviour.
-/

/-- Python `str`, viewed as a byte string. -/
abbrev Str := List Char

/-- Shorthand for embedding a Lean string literal. -/
def lit (s : String) : Str := s.data

/-! ## Generic string helpers (Python built-ins) -/

/-- `s.startswith(p)` (as list-prefix test). -/
def strStarts (p s : Str) : Bool := s.take p.length = p

/-- Split at the first occurrence of `c`: `s.split(c, 1)` when `c` occurs. -/
def splitOnceChar (c : Char) : Str → Option (Str × Str)
  | [] => none
  | x :: rest =>
    if x = c then some ([], rest)
    else match splitOnceChar c rest with
      | none => none
      | some (a, b) => some (x :: a, b)

/-- Split at the last occurrence of `c` (the second component has no `c`). -/
def splitLastChar (c : Char) : Str → Option (Str × Str)
  | [] => none
  | x :: rest =>
    match splitLastChar c rest with
    | some (a, b) => some (x :: a, b)
    | none => if x = c then some ([], rest) else none

/-- Python `str.split(sep)` for a one-character separator (never returns `[]`). -/
def splitChar (c : Char) : Str → List Str
  | [] => [[]]
  | x :: rest =>
    if x = c then [] :: splitChar c rest
    else match splitChar c rest with
      | [] => [[x]]
      | a :: as => (x :: a) :: as

/-- Python `sep.join(parts)` for a one-character separator. -/
def joinChar (c : Char) : List Str → Str
  | [] => []
  | [a] => a
  | a :: as => a ++ c :: joinChar c as

/-- ASCII lowercase of one character.  Python's `str.lower` also lowercases
non-ASCII letters; the only characters where this matters to the scraper are
exotic code points outside the byte range, which are outside the model. -/
def asciiLower (c : Char) : Char :=
  if 'A' ≤ c ∧ c ≤ 'Z' then Char.ofNat (c.val.toNat + 32) else c

/-- Python `str.lower`, ASCII part. -/
def pyLower (s : Str) : Str := s.map asciiLower

/-- ASCII whitespace, as matched by `\s` and stripped by `str.strip()`.
Python also treats a few Unicode code points as whitespace; for the slug
pipeline those are replaced by `-` either way, so outputs agree. -/
def pyIsSpace (c : Char) : Bool :=
  c = ' ' ∨ c = '\t' ∨ c = '\n' ∨ c = '\r' ∨ c.val = 11 ∨ c.val = 12

/-- Python `str.strip()`. -/
def pyStrip (s : Str) : Str :=
  ((s.dropWhile pyIsSpace).reverse.dropWhile pyIsSpace).reverse

/-! ## `_slugify` (scraper lines 36–41) -/

/-- Characters of the slug allow-list `[a-z0-9\-_.()]`. -/
def isSlugChar (c : Char) : Bool :=
  ('a' ≤ c ∧ c ≤ 'z') ∨ ('0' ≤ c ∧ c ≤ '9') ∨
    c = '-' ∨ c = '_' ∨ c = '.' ∨ c = '(' ∨ c = ')'

/-- One-pass worker for `subRuns`; `inRun` records whether the previous
character was part of a run already replaced by `-`. -/
def subRunsGo (bad : Char → Bool) : Bool → Str → Str
  | _, [] => []
  | inRun, c :: rest =>
    if bad c then
      if inRun then subRunsGo bad true rest
      else '-' :: subRunsGo bad true rest
    else c :: subRunsGo bad false rest

/-- `re.sub(pat+, "-", s)`: replace every maximal run of characters satisfying
`bad` by a single hyphen. -/
def subRuns (bad : Char → Bool) (s : Str) : Str := subRunsGo bad false s

/-- Python `str.strip("-")`. -/
def stripDashes (s : Str) : Str :=
  ((s.dropWhile (· = '-')).reverse.dropWhile (· = '-')).reverse

/-- `_slugify` from the scraper: strip/lowercase, whitespace runs to `-`,
disallowed runs to `-`, collapse `-` runs, strip `-`, truncate, fall back to
`"untitled"`. -/
def slugify (text : Str) (maxLen : Nat := 120) : Str :=
  let t := pyLower (pyStrip text)
  let t := subRuns pyIsSpace t
  let t := subRuns (fun c => !isSlugChar c) t
  let t := stripDashes (subRuns (· = '-') t)
  let t := t.take maxLen
  if t = [] then lit "untitled" else t

/-! ## CPython `urllib.parse`, transcribed from the 3.11.6 runtime sources

Strings are lists of Unicode scalar values, as in Python.  `quote` encodes
the string as UTF-8 and percent-encodes each byte; `unquote` decodes
percent escapes within each maximal ASCII run to bytes and decodes those
as UTF-8 with `errors='replace'`.  `urlsplit` includes the WHATWG
C0-control/space lstrip and the bracketed-host validation
(`_check_bracketed_host`) of this interpreter. -/

def usesRelative : List Str :=
  [lit "", lit "ftp", lit "http", lit "gopher", lit "nntp", lit "imap",
   lit "wais", lit "file", lit "https", lit "shttp", lit "mms",
   lit "prospero", lit "rtsp", lit "rtspu", lit "sftp",
   lit "svn", lit "svn+ssh", lit "ws", lit "wss"]

def usesNetloc : List Str :=
  [lit "", lit "ftp", lit "http", lit "gopher", lit "nntp", lit "telnet",
   lit "imap", lit "wais", lit "file", lit "mms", lit "https", lit "shttp",
   lit "snews", lit "prospero", lit "rtsp", lit "rtspu", lit "rsync",
   lit "svn", lit "svn+ssh", lit "sftp", lit "nfs", lit "git", lit "git+ssh",
   lit "ws", lit "wss"]

def usesParams : List Str :=
  [lit "", lit "ftp", lit "hdl", lit "prospero", lit "http", lit "imap",
   lit "https", lit "shttp", lit "rtsp", lit "rtspu", lit "sip", lit "sips",
   lit "mms", lit "sftp", lit "tel"]

def isSchemeChar (c : Char) : Bool :=
  ('a' ≤ c ∧ c ≤ 'z') ∨ ('A' ≤ c ∧ c ≤ 'Z') ∨ ('0' ≤ c ∧ c ≤ '9') ∨
    c = '+' ∨ c = '-' ∨ c = '.'

def isAsciiAlpha (c : Char) : Bool := ('a' ≤ c ∧ c ≤ 'z') ∨ ('A' ≤ c ∧ c ≤ 'Z')

def isHexDigit (c : Char) : Bool :=
  ('0' ≤ c ∧ c ≤ '9') ∨ ('a' ≤ c ∧ c ≤ 'f') ∨ ('A' ≤ c ∧ c ≤ 'F')

def hexVal (c : Char) : Nat :=
  if '0' ≤ c ∧ c ≤ '9' then c.toNat - 48
  else if 'a' ≤ c ∧ c ≤ 'f' then c.toNat - 87
  else c.toNat - 55

def hexDigitUpper (n : Nat) : Char :=
  if n < 10 then Char.ofNat (48 + n) else Char.ofNat (55 + n)

structure SplitResult where
  scheme : Str
  netloc : Str
  path : Str
  query : Str
  fragment : Str
deriving DecidableEq, Repr

/-- Removal of `\t`, `\r`, `\n` (`_UNSAFE_URL_BYTES_TO_REMOVE`). -/
def stripUnsafe (s : Str) : Str :=
  s.filter (fun c => ¬(c = '\t' ∨ c = '\r' ∨ c = '\n'))

/-- The scheme-recognition step of `urlsplit`: split `url` at the first `:`
when the prefix is a well-formed scheme (nonempty, ASCII-alpha start, scheme
characters only); otherwise fall back to the default scheme. -/
def schemeSplit (dflt url : Str) : Str × Str :=
  match splitOnceChar ':' url with
  | none => (dflt, url)
  | some (pre, post) =>
    if pre ≠ [] ∧ isAsciiAlpha (pre.headD 'x') ∧ pre.all isSchemeChar then
      (pyLower pre, post)
    else (dflt, url)

/-- `_splitnetloc(url, 2)` applied after the leading `//` was dropped: the
netloc extends to the first of `/`, `?`, `#`. -/
def splitnetloc (url : Str) : Str × Str :=
  (url.takeWhile (fun c => ¬(c = '/' ∨ c = '?' ∨ c = '#')),
   url.dropWhile (fun c => ¬(c = '/' ∨ c = '?' ∨ c = '#')))

/-- The "Invalid IPv6 URL" condition of `urlsplit`. -/
def bracketBad (netloc : Str) : Bool :=
  ('[' ∈ netloc ∧ ']' ∉ netloc) ∨ (']' ∈ netloc ∧ '[' ∉ netloc)

/-- `_WHATWG_C0_CONTROL_OR_SPACE`: code points `0x00`–`0x20`. -/
def isC0OrSpace (c : Char) : Bool := c.toNat ≤ 32

/-- `url.lstrip(_WHATWG_C0_CONTROL_OR_SPACE)` (urlsplit strips only the
left of the url). -/
def lstripC0 (s : Str) : Str := s.dropWhile isC0OrSpace

/-- `scheme.strip(_WHATWG_C0_CONTROL_OR_SPACE)` (both ends, applied to the
default scheme argument). -/
def stripC0 (s : Str) : Str :=
  ((s.dropWhile isC0OrSpace).reverse.dropWhile isC0OrSpace).reverse

/-- Decimal value of an ASCII digit string. -/
def decVal (s : Str) : Nat := s.foldl (fun a c => 10 * a + (c.toNat - 48)) 0

/-- `ipaddress._BaseV4._parse_octet`: nonempty, ASCII decimal digits, at
most 3 characters, no leading zero unless the octet is `0`, value ≤ 255. -/
def validOctet (o : Str) : Bool :=
  o ≠ [] ∧ o.all (fun c => '0' ≤ c ∧ c ≤ '9') ∧ o.length ≤ 3 ∧
    (o = lit "0" ∨ o.headD '0' ≠ '0') ∧ decVal o ≤ 255

/-- `ipaddress.IPv4Address` on a string: no `/`, exactly four dot-separated
valid octets. -/
def isIPv4 (s : Str) : Bool :=
  '/' ∉ s ∧ (splitChar '.' s).length = 4 ∧ (splitChar '.' s).all validOctet

/-- `ipaddress._BaseV6._parse_hextet`: hex digits only, 1–4 characters
(the empty string fails `int(s, 16)`). -/
def validHextet (h : Str) : Bool := h ≠ [] ∧ h.all isHexDigit ∧ h.length ≤ 4

/-- The `::`-handling core of `_BaseV6._ip_int_from_string`, after the
IPv4-suffix rewrite: at most 9 parts, at most one empty interior part
(the `::`), boundary empties only as part of a leading/trailing `::`,
at least one skipped group, and every copied part a valid hextet. -/
def ipv6Parts (parts : List Str) : Bool :=
  let n := parts.length
  if parts.length > 9 then false
  else
    match (List.range n).filter (fun i => 0 < i ∧ i < n - 1 ∧ parts.getD i [] = []) with
    | [] =>
      n = 8 ∧ parts.getD 0 [] ≠ [] ∧ parts.getLastD [] ≠ [] ∧ parts.all validHextet
    | [i] =>
      let headEmpty := parts.getD 0 [] = []
      let lastEmpty := parts.getLastD [] = []
      let hi := if headEmpty then i - 1 else i
      let lo := if lastEmpty then n - i - 2 else n - i - 1
      (¬headEmpty ∨ hi = 0) ∧ (¬lastEmpty ∨ lo = 0) ∧ hi + lo ≤ 7 ∧
        (parts.take hi).all validHextet ∧ (parts.drop (n - lo)).all validHextet
    | _ => false

/-- `_BaseV6._ip_int_from_string` as a validity predicate: nonempty, at
least 3 colon-separated parts, an IPv4-style last part is converted to two
hextets (modelled by two `0` hextets — the converted values are always
valid, only their count matters), then the `::` bookkeeping. -/
def ipv6Core (addr : Str) : Bool :=
  if addr = [] then false
  else
    let parts := splitChar ':' addr
    if parts.length < 3 then false
    else if '.' ∈ parts.getLastD [] then
      if isIPv4 (parts.getLastD []) then
        ipv6Parts (parts.dropLast ++ [lit "0", lit "0"])
      else false
    else ipv6Parts parts

/-- `ipaddress.IPv6Address` on a string: no `/`, an optional `%scope`
suffix (nonempty, no further `%`), and a valid address core. -/
def isIPv6 (s : Str) : Bool :=
  if '/' ∈ s then false
  else
    match splitOnceChar '%' s with
    | some (addr, scope) => scope ≠ [] ∧ '%' ∉ scope ∧ ipv6Core addr
    | none => ipv6Core s

/-- After the hex digits of an IPvFuture literal: a dot, then one or more
non-newline characters reaching the end of the string. -/
def ipvFutureTail : Str → Bool
  | '.' :: tail => tail ≠ [] ∧ '\n' ∉ tail
  | _ => false

/-- The IPvFuture check of `_check_bracketed_host`:
`re.match` of `v`, one or more hex digits, a dot, then one or more
non-newline characters, anchored to the whole string. -/
def ipvFuture : Str → Bool
  | 'v' :: t => t.takeWhile isHexDigit ≠ [] ∧ ipvFutureTail (t.dropWhile isHexDigit)
  | _ => false

/-- `netloc.partition('[')[2].partition(']')[0]`. -/
def bracketedHostOf (netloc : Str) : Str :=
  match splitOnceChar '[' netloc with
  | none => []
  | some (_, after) =>
    match splitOnceChar ']' after with
    | none => after
    | some (h, _) => h

/-- `_check_bracketed_host` (CPython 3.11.4+): a bracketed host must be an
IPvFuture literal (when it starts with `v`) or parse under
`ipaddress.ip_address` as an IPv6 address — an IPv4 address in brackets is
rejected, as is anything that parses as neither. -/
def checkBracketedHost (host : Str) : Bool :=
  if host.take 1 = lit "v" then ipvFuture host
  else if isIPv4 host then false
  else isIPv6 host

/-- The two `ValueError` sites of `urlsplit`'s netloc handling: unbalanced
square brackets, or a balanced bracketed host that fails
`_check_bracketed_host`. -/
def netlocBad (netloc : Str) : Bool :=
  bracketBad netloc ∨
    (('[' ∈ netloc ∧ ']' ∈ netloc) ∧ ¬checkBracketedHost (bracketedHostOf netloc))

/-- `urlsplit(url, dflt)` with `allow_fragments=True` (CPython 3.11.6
runtime): WHATWG C0-control/space lstrip of the url and strip of the
default scheme, removal of tab/CR/LF, scheme recognition, netloc
extraction, the bracket checks (`none` models both `ValueError` sites),
then fragment and query splits.  `_checknetloc` is modelled as a no-op: it
raises only for netlocs that change under NFKC normalization, which no
ASCII netloc does. -/
def urlsplit (dflt url₀ : Str) : Option SplitResult :=
  let url := stripUnsafe (lstripC0 url₀)
  let dflt := stripUnsafe (stripC0 dflt)
  let (scheme, url) := schemeSplit dflt url
  let (netloc, url) :=
    if url.take 2 = lit "//" then splitnetloc (url.drop 2) else ([], url)
  if netlocBad netloc then none
  else
    let (url, fragment) := match splitOnceChar '#' url with
      | some (a, b) => (a, b)
      | none => (url, [])
    let (url, query) := match splitOnceChar '?' url with
      | some (a, b) => (a, b)
      | none => (url, [])
    some ⟨scheme, netloc, url, query, fragment⟩

def urlunsplit (p : SplitResult) : Str :=
  let url := p.path
  let url :=
    if p.netloc ≠ [] ∨ (p.scheme ≠ [] ∧ p.scheme ∈ usesNetloc ∧ url.take 2 ≠ lit "//") then
      let url := if url ≠ [] ∧ url.take 1 ≠ lit "/" then '/' :: url else url
      lit "//" ++ p.netloc ++ url
    else url
  let url := if p.scheme ≠ [] then p.scheme ++ ':' :: url else url
  let url := if p.query ≠ [] then url ++ '?' :: p.query else url
  if p.fragment ≠ [] then url ++ '#' :: p.fragment else url

/-- `_splitparams`: split path parameters at the first `;` of the last path
segment.  (The `none/none` case transcribes CPython's `find = -1` slicing; it
is unreachable because callers guard on `';' ∈ url`.) -/
def splitparams (url : Str) : Str × Str :=
  match splitLastChar '/' url with
  | some (a, b) =>
    match splitOnceChar ';' b with
    | none => (url, [])
    | some (b1, b2) => (a ++ '/' :: b1, b2)
  | none =>
    match splitOnceChar ';' url with
    | none => (url.dropLast, url)
    | some (u1, u2) => (u1, u2)

/-- `urlparse(url, dflt)`: `urlsplit` plus parameter splitting. -/
def urlparse (dflt url : Str) : Option (SplitResult × Str) := do
  let p ← urlsplit dflt url
  if p.scheme ∈ usesParams ∧ ';' ∈ p.path then
    let (pp, params) := splitparams p.path
    return ({ p with path := pp }, params)
  else
    return (p, [])

/-- `urlunparse`: reattach parameters, then `urlunsplit`. -/
def urlunparse (p : SplitResult) (params : Str) : Str :=
  urlunsplit { p with path := if params ≠ [] then p.path ++ ';' :: params else p.path }

/-- `filter(None, ·)` on the middle of a segment list: drops empty segments
but always keeps the final one. -/
def filterKeepLast : List Str → List Str
  | [] => []
  | [a] => [a]
  | a :: b :: rest =>
    if a = [] then filterKeepLast (b :: rest) else a :: filterKeepLast (b :: rest)

/-- `segments[1:-1] = filter(None, segments[1:-1])`. -/
def midFilter : List Str → List Str
  | [] => []
  | a :: rest => a :: filterKeepLast rest

/-- The `.`/`..` resolution loop of `urljoin`. -/
def resolveSegs (segs : List Str) : List Str :=
  let r := segs.foldl
    (fun acc seg =>
      if seg = lit ".." then acc.dropLast
      else if seg = lit "." then acc
      else acc ++ [seg]) []
  if segs.getLastD [] = lit "." ∨ segs.getLastD [] = lit ".." then r ++ [[]] else r

/-- `urljoin(base, url)` with `allow_fragments=True`. -/
def urljoin (base url : Str) : Option Str :=
  if base = [] then some url
  else if url = [] then some base
  else do
    let (bp, bparams) ← urlparse [] base
    let (up, params) ← urlparse bp.scheme url
    if up.scheme ≠ bp.scheme ∨ up.scheme ∉ usesRelative then
      return url
    if up.scheme ∈ usesNetloc ∧ up.netloc ≠ [] then
      return urlunparse up params
    let netloc := if up.scheme ∈ usesNetloc then bp.netloc else up.netloc
    if up.path = [] ∧ params = [] then
      let query := if up.query = [] then bp.query else up.query
      return urlunparse
        { scheme := up.scheme, netloc := netloc, path := bp.path,
          query := query, fragment := up.fragment } bparams
    let baseParts := splitChar '/' bp.path
    let baseParts := if baseParts.getLastD [] ≠ [] then baseParts.dropLast else baseParts
    let segments :=
      if up.path.take 1 = lit "/" then splitChar '/' up.path
      else midFilter (baseParts ++ splitChar '/' up.path)
    let joined := joinChar '/' (resolveSegs segments)
    let path := if joined = [] then lit "/" else joined
    return urlunparse
      { scheme := up.scheme, netloc := netloc, path := path,
        query := up.query, fragment := up.fragment } params

/-! ## Percent encoding (`quote` / `unquote` and the `_plus` variants)

CPython's `unquote` decodes each maximal run of ASCII characters via
`unquote_to_bytes` (percent escapes to raw bytes, other characters to
their ASCII bytes) and then UTF-8 with `errors='replace'`; non-ASCII
characters pass through.  `quote` encodes the string as UTF-8 and
percent-encodes each byte outside the safe set. -/

/-- UTF-8 encoding of one scalar value. -/
def utf8EncodeChar (c : Char) : List Nat :=
  let n := c.toNat
  if n < 128 then [n]
  else if n < 2048 then [192 + n / 64, 128 + n % 64]
  else if n < 65536 then [224 + n / 4096, 128 + n / 64 % 64, 128 + n % 64]
  else [240 + n / 262144, 128 + n / 4096 % 64, 128 + n / 64 % 64, 128 + n % 64]

def utf8Encode (s : Str) : List Nat := (s.map utf8EncodeChar).flatten

/-- CPython's UTF-8 decoder with `errors='replace'`: one U+FFFD per
maximal subpart of an ill-formed sequence (a valid lead byte consumes its
valid continuation bytes before the replacement; an invalid byte is
replaced alone).  Lead-dependent first-continuation ranges exclude
overlong forms, surrogates and values above U+10FFFF. -/
def utf8DecodeGo : Nat → List Nat → Str
  | 0, _ => []
  | _, [] => []
  | Nat.succ fuel, b :: rest =>
    if b < 128 then Char.ofNat b :: utf8DecodeGo fuel rest
    else if 194 ≤ b ∧ b ≤ 223 then
      match rest with
      | b1 :: rest1 =>
        if 128 ≤ b1 ∧ b1 ≤ 191 then
          Char.ofNat ((b - 192) * 64 + (b1 - 128)) :: utf8DecodeGo fuel rest1
        else Char.ofNat 65533 :: utf8DecodeGo fuel rest
      | [] => [Char.ofNat 65533]
    else if 224 ≤ b ∧ b ≤ 239 then
      let lo1 := if b = 224 then 160 else 128
      let hi1 := if b = 237 then 159 else 191
      match rest with
      | b1 :: rest1 =>
        if lo1 ≤ b1 ∧ b1 ≤ hi1 then
          match rest1 with
          | b2 :: rest2 =>
            if 128 ≤ b2 ∧ b2 ≤ 191 then
              Char.ofNat ((b - 224) * 4096 + (b1 - 128) * 64 + (b2 - 128)) ::
                utf8DecodeGo fuel rest2
            else Char.ofNat 65533 :: utf8DecodeGo fuel rest1
          | [] => [Char.ofNat 65533]
        else Char.ofNat 65533 :: utf8DecodeGo fuel rest
      | [] => [Char.ofNat 65533]
    else if 240 ≤ b ∧ b ≤ 244 then
      let lo1 := if b = 240 then 144 else 128
      let hi1 := if b = 244 then 143 else 191
      match rest with
      | b1 :: rest1 =>
        if lo1 ≤ b1 ∧ b1 ≤ hi1 then
          match rest1 with
          | b2 :: rest2 =>
            if 128 ≤ b2 ∧ b2 ≤ 191 then
              match rest2 with
              | b3 :: rest3 =>
                if 128 ≤ b3 ∧ b3 ≤ 191 then
                  Char.ofNat ((b - 240) * 262144 + (b1 - 128) * 4096 +
                      (b2 - 128) * 64 + (b3 - 128)) :: utf8DecodeGo fuel rest3
                else Char.ofNat 65533 :: utf8DecodeGo fuel rest2
              | [] => [Char.ofNat 65533]
            else Char.ofNat 65533 :: utf8DecodeGo fuel rest1
          | [] => [Char.ofNat 65533]
        else Char.ofNat 65533 :: utf8DecodeGo fuel rest
      | [] => [Char.ofNat 65533]
    else Char.ofNat 65533 :: utf8DecodeGo fuel rest

/-- Each step of the decoder consumes at least one byte, so the length is
enough fuel. -/
def utf8DecodeReplace (bs : List Nat) : Str := utf8DecodeGo bs.length bs

/-- The scan of `unquote`: accumulate the bytes of the current maximal
ASCII run (reversed; percent escapes with two hex digits become one byte,
as in `unquote_to_bytes`), flush through the replacing UTF-8 decoder at a
non-ASCII character or the end, and pass non-ASCII characters through. -/
def unquoteGo : List Nat → Str → Str
  | acc, [] => utf8DecodeReplace acc.reverse
  | acc, '%' :: h :: l :: rest =>
    if isHexDigit h ∧ isHexDigit l then
      unquoteGo ((16 * hexVal h + hexVal l) :: acc) rest
    else unquoteGo (37 :: acc) (h :: l :: rest)
  | acc, c :: rest =>
    if c.toNat < 128 then unquoteGo (c.toNat :: acc) rest
    else utf8DecodeReplace acc.reverse ++ c :: unquoteGo [] rest

def unquote (s : Str) : Str := unquoteGo [] s

/-- `_ALWAYS_SAFE`: never percent-encoded. -/
def ALWAYS_SAFE : Str :=
  lit "ABCDEFGHIJKLMNOPQRSTUVWXYZabcdefghijklmnopqrstuvwxyz0123456789_.-~"

/-- One byte of `quote_from_bytes`: kept if always-safe or (as an ASCII
character) in the safe set, else `%XX` with uppercase hex. -/
def quoteByte (safe : Str) (b : Nat) : Str :=
  if b < 128 ∧ (Char.ofNat b ∈ ALWAYS_SAFE ∨ Char.ofNat b ∈ safe) then [Char.ofNat b]
  else ['%', hexDigitUpper (b / 16 % 16), hexDigitUpper (b % 16)]

/-- `quote(string, safe)`: UTF-8 encode, then quote each byte. -/
def quote (safe : Str) (s : Str) : Str := ((utf8Encode s).map (quoteByte safe)).flatten

/-- `quote_plus`: when the string has a space, `quote` with space added to
the safe set and spaces then replaced by `+`.  Byte 32 only arises from a
space character, so this is byte 32 to `+` and the rest as `quote`; when
there is no space the two branches agree. -/
def quotePlus (safe : Str) (s : Str) : Str :=
  ((utf8Encode s).map (fun b => if b = 32 then ['+'] else quoteByte safe b)).flatten

/-- `unquote_plus`: `+` to space, then `unquote`. -/
def unquotePlus (s : Str) : Str :=
  unquote (s.map (fun c => if c = '+' then ' ' else c))

/-! ## `normalize_url` (scraper lines 68–81) -/

def BASE : Str := lit "https://animezen.net"

def pathSafe : Str := lit "/()!.,;:@-_"

def querySafe : Str := lit "=&"

/-- The re-encoding applied to the split components of the joined URL. -/
def renorm (p : SplitResult) : SplitResult :=
  { p with
    path := quote pathSafe (unquote p.path),
    query := quotePlus querySafe (unquotePlus p.query),
    fragment := quote [] (unquote p.fragment) }

/-- `normalize_url` from the scraper; `none` models the `ValueError` that
`urlsplit` raises on unbalanced brackets. -/
def normalize_url (url : Str) : Option Str := do
  let j ← urljoin BASE url
  let p ← urlsplit [] j
  return urlunsplit (renorm p)

/-! ## `posixpath.basename` / `splitext` and `_safe_filename_from_url`
(scraper lines 44–53) -/

def pyBasename (p : Str) : Str :=
  match splitLastChar '/' p with
  | some (_, b) => b
  | none => p

/-- `posixpath.splitext`: split at the last dot of the last component unless
all characters before it (within the component) are dots. -/
def splitext (p : Str) : Str × Str :=
  let (dir, base) :=
    match splitLastChar '/' p with
    | some (a, b) => (a ++ ['/'], b)
    | none => (([] : Str), p)
  match splitLastChar '.' base with
  | none => (p, [])
  | some (r, e) => if r.all (· = '.') then (p, []) else (dir ++ r, '.' :: e)

/-- `_safe_filename_from_url` from the scraper. -/
def safe_filename_from_url (url : Str) : Option Str := do
  let (parsed, _) ← urlparse [] url
  let basename := pyBasename parsed.path
  let basename := unquote basename
  let (root, ext) := splitext basename
  let ext := if ext = [] then lit ".mid" else ext
  return slugify root 120 ++ pyLower ext

/-! ## `download_file` (scraper lines 143–191)

The filesystem is the pair of contents at the destination path and at the
sibling `.part` temporary path; the network is an oracle listing each
attempt's behaviour.  Floating-point sleep durations are modelled as exact
rationals (`backoff_s * 2**attempt` is exact scaling by a power of two). -/

/-- Contents at the destination path and at the `.part` path
(`none` = no file there). -/
structure FS where
  dest : Option Str
  tmp : Option Str
deriving DecidableEq, Repr

/-- Behaviour of one download attempt.
`connectFail`: `urlopen` raises before the temp file is opened.
`midFail`: the temp file is opened and `written` chunks stream before a
failure (truncated stream, timeout, I/O error).
`success`: every chunk streams and the temp file closes normally.
The `msg` is `str(e)` of the raised exception. -/
inductive AttemptResult where
  | connectFail (msg : Str)
  | midFail (written : List Str) (msg : Str)
  | success (chunks : List Str)
deriving DecidableEq, Repr

/-- The failure message of an attempt (`""` for a success). -/
def attemptMsg : AttemptResult → Str
  | .connectFail m => m
  | .midFail _ m => m
  | .success _ => []

/-- Whether an attempt fails. -/
def attemptFails : AttemptResult → Bool
  | .connectFail _ => true
  | .midFail _ _ => true
  | .success _ => false

/-- One `try` body of the download loop: the state when the body finishes or
raises (temp file holds what was streamed), the state after the `except`
cleanup (failure: temp unlinked) or after `tmp_path.replace(dest_path)`
(success), and the error message if it failed. -/
def attemptOnce (fs : FS) : AttemptResult → FS × FS × Option Str
  | .connectFail msg => (fs, { fs with tmp := none }, some msg)
  | .midFail written msg =>
    ({ fs with tmp := some written.flatten }, { fs with tmp := none }, some msg)
  | .success chunks =>
    ({ fs with tmp := some chunks.flatten },
     { dest := some chunks.flatten, tmp := none }, none)

/-- State evolution of one attempt, recorded for the whole loop. -/
structure AttemptTrace where
  mid : FS
  after : FS
  failed : Bool
deriving DecidableEq, Repr

/-- Result of `download_file`: final filesystem, the returned
`(downloaded, message)` pair, the sleeps performed, the number of network
attempts, and the state trace. -/
structure DLResult where
  fs : FS
  downloaded : Bool
  msg : Str
  sleeps : List ℚ
  calls : Nat
  trace : List AttemptTrace
deriving DecidableEq, Repr

/-- The retry loop `for attempt in range(retries + 1)` over the listed
attempt behaviours; `i` is the attempt index (backoff exponent).  An empty
list models the loop body never running (`error: None`). -/
def dlLoop (backoff : ℚ) : Nat → FS → Option Str → List AttemptResult → DLResult
  | _, fs, lastErr, [] =>
    ⟨fs, false, lit "error: " ++ lastErr.getD (lit "None"), [], 0, []⟩
  | i, fs, _, a :: rest =>
    match attemptOnce fs a with
    | (mid, after, none) =>
      ⟨after, true, lit "downloaded", [], 1, [⟨mid, after, false⟩]⟩
    | (mid, after, some e) =>
      if rest = [] then
        ⟨after, false, lit "error: " ++ e, [], 1, [⟨mid, after, true⟩]⟩
      else
        let r := dlLoop backoff (i + 1) after (some e) rest
        ⟨r.fs, r.downloaded, r.msg, backoff * 2 ^ i :: r.sleeps, r.calls + 1,
          ⟨mid, after, true⟩ :: r.trace⟩

/-- `download_file` from the scraper: the `exists` and `dry-run` short
circuits, then the streaming retry loop over the first `retries + 1` oracle
entries. -/
def download_file (net : List AttemptResult) (retries : Nat) (backoff : ℚ)
    (dryRun : Bool) (fs : FS) : DLResult :=
  if fs.dest.isSome then ⟨fs, false, lit "exists", [], 0, []⟩
  else if dryRun then ⟨fs, false, lit "dry-run", [], 0, []⟩
  else dlLoop backoff 0 fs none (net.take (retries + 1))

/-- `iter_selected(items, limit)`: `items[:limit]` for a non-negative limit,
the whole list when the limit is `None` or negative. -/
def iter_selected {α : Type} (items : List α) (limit : Option Int) : List α :=
  match limit with
  | none => items
  | some l => if l < 0 then items else items.take l.toNat


/-! ## The href-attribute scanner and the extension filter
(`re.findall` / `re.search`, scraper lines 103, 111, 123, 126) -/

/-- One anchored attempt of the pattern: literal `href=` (case-insensitive),
an opening quote, one or more non-quote characters (captured), a closing
quote.  Returns the capture and the text after the closing quote. -/
def matchHref : Str → Option (Str × Str)
  | h :: r :: e :: f :: eq :: q :: rest =>
    if asciiLower h = 'h' ∧ asciiLower r = 'r' ∧ asciiLower e = 'e' ∧
        asciiLower f = 'f' ∧ eq = '=' ∧ (q = '"' ∨ q = '\x27') then
      let content := rest.takeWhile (fun c => ¬(c = '"' ∨ c = '\x27'))
      let after := rest.dropWhile (fun c => ¬(c = '"' ∨ c = '\x27'))
      if content ≠ [] ∧ after ≠ [] then some (content, after.drop 1) else none
    else none
  | _ => none

/-- The left-to-right, non-overlapping `re.findall` scan, with enough fuel
to consume one character per step. -/
def findHrefsGo : Nat → Str → List Str
  | 0, _ => []
  | _, [] => []
  | Nat.succ fuel, c :: rest =>
    match matchHref (c :: rest) with
    | some (content, after) => content :: findHrefsGo fuel after
    | none => findHrefsGo fuel rest

def findHrefs (s : Str) : List Str := findHrefsGo s.length s

/-- Anchored attempt of the extension pattern: a dot, then `mid` or `midi`
(case-insensitive, longer alternative tried on backtracking), then a `?`
or the end of the string. -/
def extMatchAt : Str → Bool
  | '.' :: m :: i :: d :: rest =>
    if asciiLower m = 'm' ∧ asciiLower i = 'i' ∧ asciiLower d = 'd' then
      match rest with
      | [] => true
      | '?' :: _ => true
      | i2 :: rest2 =>
        if asciiLower i2 = 'i' then
          match rest2 with
          | [] => true
          | '?' :: _ => true
          | _ => false
        else false
    else false
  | _ => false

/-- `re.search` of the extension pattern: an anchored match at any position. -/
def extSearch : Str → Bool
  | [] => false
  | c :: rest => extMatchAt (c :: rest) || extSearch rest

/-! ## Python `sorted` on strings and order-preserving deduplication -/

/-- Python string `<`: lexicographic by code point. -/
def lexLt : Str → Str → Bool
  | [], [] => false
  | [], _ :: _ => true
  | _ :: _, [] => false
  | a :: as, b :: bs =>
    if a.toNat < b.toNat then true
    else if a = b then lexLt as bs
    else false

def insertLe (x : Str) : List Str → List Str
  | [] => [x]
  | y :: ys => if lexLt y x then y :: insertLe x ys else x :: y :: ys

/-- Insertion sort; agrees with Python `sorted` on lists without duplicates
(it is stable, and the scraper sorts a deduplicated set). -/
def pySorted : List Str → List Str
  | [] => []
  | x :: xs => insertLe x (pySorted xs)

/-- The `seen`-set deduplication loop shared by both parsers: keep the first
element for each key. -/
def dedupBy {α β : Type} [DecidableEq β] (key : α → β) : List α → List β → List α
  | [], _ => []
  | x :: xs, seen =>
    if key x ∈ seen then dedupBy key xs seen
    else x :: dedupBy key xs (key x :: seen)

def dedupKeyed {α β : Type} [DecidableEq β] (key : α → β) (l : List α) : List α :=
  dedupBy key l []

/-! ## `parse_categories` (scraper lines 99–117) -/

structure Cat where
  name : Str
  url : Str
deriving DecidableEq, Repr

/-- The readable name: text after the first `/midis/`, percent-decoded,
dashes to spaces, stripped; the raw href if that is empty. -/
def catName (href : Str) : Str :=
  let t := pyStrip ((unquote (href.drop 7)).map (fun c => if c = '-' then ' ' else c))
  if t = [] then href else t

def parse_categoriesGo : List Str → Option (List Cat)
  | [] => some []
  | href :: rest =>
    if strStarts (lit "/midis/") href then
      if href = lit "/midis" then parse_categoriesGo rest
      else if extSearch href then parse_categoriesGo rest
      else do
        let url ← urljoin BASE href
        let cats ← parse_categoriesGo rest
        return ⟨catName href, url⟩ :: cats
    else parse_categoriesGo rest

/-- `parse_categories`: deduplicated (`set`) and sorted hrefs, filtered and
resolved against the base URL; `none` models the `ValueError` that `urljoin`
can raise. -/
def parse_categories (html : Str) : Option (List Cat) :=
  parse_categoriesGo (pySorted (dedupKeyed id (findHrefs html)))

/-! ## `parse_midis` (scraper lines 120–140) -/

structure Midi where
  category_name : Str
  title : Str
  url : Str
deriving DecidableEq, Repr

def parse_midisGo (cat : Str) : List Str → Option (List Midi)
  | [] => some []
  | href :: rest =>
    if extSearch href then do
      let url ← normalize_url href
      let pr ← urlparse [] url
      let midis ← parse_midisGo cat rest
      return ⟨cat, unquote (pyBasename pr.1.path), url⟩ :: midis
    else parse_midisGo cat rest

/-- `parse_midis`: extension-filtered hrefs in document order, normalized,
titled from the decoded path basename, then deduplicated by URL keeping the
first occurrence. -/
def parse_midis (html cat : Str) : Option (List Midi) := do
  let midis ← parse_midisGo cat (findHrefs html)
  return dedupKeyed Midi.url midis

/-! # Theorems -/

theorem subRunsGo_mem (bad : Char → Bool) (b : Bool) (s : Str) :
    ∀ c ∈ subRunsGo bad b s, c = '-' ∨ (c ∈ s ∧ bad c = false) := by
  induction s generalizing b with
  | nil => simp [subRunsGo]
  | cons x rest ih =>
    intro c hc
    by_cases hx : bad x = true
    · have hrec : c ∈ subRunsGo bad true rest →
          c = '-' ∨ (c ∈ x :: rest ∧ bad c = false) := fun h => by
        rcases ih true c h with h1 | ⟨h1, h2⟩
        · exact Or.inl h1
        · exact Or.inr ⟨List.mem_cons_of_mem _ h1, h2⟩
      cases b with
      | false =>
        simp [subRunsGo, hx] at hc
        rcases hc with hc | hc
        · exact Or.inl hc
        · exact hrec hc
      | true =>
        simp [subRunsGo, hx] at hc
        exact hrec hc
    · simp [subRunsGo, hx] at hc
      rcases hc with hc | hc
      · exact Or.inr ⟨hc ▸ List.mem_cons_self _ _, hc ▸ Bool.eq_false_iff.mpr hx⟩
      · rcases ih false c hc with h | ⟨h1, h2⟩
        · exact Or.inl h
        · exact Or.inr ⟨List.mem_cons_of_mem _ h1, h2⟩

theorem stripDashes_subset (s : Str) : ∀ c ∈ stripDashes s, c ∈ s := by
  intro c hc
  simp only [stripDashes, List.mem_reverse] at hc
  have h1 := (List.dropWhile_suffix (· = '-')).sublist.subset hc
  rw [List.mem_reverse] at h1
  exact (List.dropWhile_suffix (· = '-')).sublist.subset h1

theorem slugify_chars (t : Str) (m : Nat) :
    ∀ c ∈ slugify t m, isSlugChar c = true := by
  intro c hc
  have huntitled : ∀ c ∈ lit "untitled", isSlugChar c = true := by decide
  simp only [slugify] at hc
  split at hc
  · exact huntitled c hc
  · have h1 := List.take_subset m _ hc
    have h2 := stripDashes_subset _ c h1
    rcases subRunsGo_mem _ _ _ c h2 with h3 | ⟨h3, _⟩
    · subst h3; decide
    · rcases subRunsGo_mem _ _ _ c h3 with h4 | ⟨_, h5⟩
      · subst h4; decide
      · simpa using h5

/-- C6 counterexample: `_slugify` applies the `"untitled"` fallback after the
truncation, so with `max_len = 0` the output is `"untitled"`, of length
`8 > 0`, violating "has length at most max_len". -/
theorem slugify_len_counterexample :
    slugify (lit "") 0 = lit "untitled" ∧ (slugify (lit "") 0).length = 8 ∧
      ¬((slugify (lit "") 0).length ≤ 0) := by decide

/-- C6 (amended): for every input and `max_len`, `_slugify` returns a string
over `[a-z0-9\-_.()]` that is never empty, of length at most
`max(max_len, 8)`, and of length at most `max_len` whenever `max_len ≥ 8`
(the `"untitled"` fallback, substituted when the truncated slug is empty,
ignores the truncation bound).  `_slugify` is a pure function of its
arguments. -/
theorem slugify_spec (t : Str) (m : Nat) :
    (∀ c ∈ slugify t m, isSlugChar c = true) ∧ slugify t m ≠ [] ∧
      (slugify t m).length ≤ max m 8 ∧ (8 ≤ m → (slugify t m).length ≤ m) := by
  have hnil : lit "untitled" ≠ [] := by decide
  have hlen8 : (lit "untitled").length = 8 := by decide
  refine ⟨slugify_chars t m, ?_⟩
  simp only [slugify]
  split
  · refine ⟨hnil, ?_, ?_⟩
    · rw [hlen8]; exact le_max_right m 8
    · intro h8; rw [hlen8]; exact h8
  · next h =>
    refine ⟨h, ?_, ?_⟩
    · exact le_trans (List.length_take_le _ _) (le_max_left m 8)
    · intro _; exact List.length_take_le _ _

/-- Witness for `slugify_spec` at a concrete input, discharging its
hypothesis `8 ≤ max_len`. -/
theorem slugify_spec_witness :
    (slugify (lit "  Hello,  World! (x)_9 ") 120).length ≤ 120 :=
  (slugify_spec (lit "  Hello,  World! (x)_9 ") 120).2.2.2 (by decide)

/-! ## Character arithmetic helpers -/

theorem charOfNat_toNat {n : Nat} (h : n < 55296) : (Char.ofNat n).toNat = n := by
  unfold Char.ofNat
  rw [dif_pos (Or.inl h)]
  unfold Char.ofNatAux Char.toNat
  simp [UInt32.toNat, UInt32.ofNatCore]

theorem charLe_toNat {c d : Char} (h : c ≤ d) : c.toNat ≤ d.toNat := by
  simpa [Char.le_def, UInt32.le_def, Char.toNat, UInt32.toNat, BitVec.le_def] using h

theorem asciiLower_ne (c x : Char) (hx : x.toNat < 65 ∨ 122 < x.toNat)
    (h : c ≠ x) : asciiLower c ≠ x := by
  unfold asciiLower
  split
  · next hc =>
    intro he
    have h1 : 65 ≤ c.toNat := by
      have := charLe_toNat hc.1
      simpa [Char.toNat] using this
    have h2 : c.toNat ≤ 90 := by
      have := charLe_toNat hc.2
      simpa [Char.toNat] using this
    have hv : (Char.ofNat (c.val.toNat + 32)).toNat = c.val.toNat + 32 :=
      charOfNat_toNat (by simp only [Char.toNat] at h2; omega)
    have : (Char.ofNat (c.val.toNat + 32)).toNat = x.toNat := by rw [he]
    rw [hv] at this
    simp only [Char.toNat] at h1 h2
    omega
  · exact h

/-! ## `splitLastChar` structure lemmas -/

theorem splitLastChar_none (c : Char) (s : Str) (h : splitLastChar c s = none) :
    c ∉ s := by
  induction s with
  | nil => simp
  | cons x rest ih =>
    intro hmem
    simp only [splitLastChar] at h
    rcases hr : splitLastChar c rest with _ | ⟨a, b⟩
    · rw [hr] at h
      rcases List.mem_cons.mp hmem with h1 | h1
      · rw [← h1] at h; simp at h
      · exact ih hr h1
    · rw [hr] at h; simp at h

theorem splitLastChar_eq (c : Char) (s a b : Str)
    (h : splitLastChar c s = some (a, b)) : s = a ++ c :: b ∧ c ∉ b := by
  induction s generalizing a b with
  | nil => simp [splitLastChar] at h
  | cons x rest ih =>
    simp only [splitLastChar] at h
    rcases hr : splitLastChar c rest with _ | ⟨a', b'⟩
    · rw [hr] at h
      by_cases hx : x = c
      · simp only [hx, if_true, Option.some.injEq, Prod.mk.injEq] at h
        obtain ⟨rfl, rfl⟩ := h
        exact ⟨by simp [hx], splitLastChar_none c rest hr⟩
      · simp [hx] at h
    · rw [hr] at h
      simp only [Option.some.injEq, Prod.mk.injEq] at h
      obtain ⟨rfl, rfl⟩ := h
      obtain ⟨h1, h2⟩ := ih a' b' hr
      exact ⟨by simp [h1], h2⟩

/-! ## `_safe_filename_from_url` -/

theorem splitext_no_slash (p : Str) : ∀ c ∈ (splitext p).2, c ≠ '/' := by
  have key : ∀ (dir base : Str), ('/' ∉ base) →
      ∀ c ∈ (match splitLastChar '.' base with
             | none => (p, ([] : Str))
             | some (r, e) =>
               if r.all (· = '.') then (p, ([] : Str)) else (dir ++ r, '.' :: e)).2,
        c ≠ '/' := by
    intro dir base hb c hc
    rcases h2 : splitLastChar '.' base with _ | ⟨r, e⟩
    · rw [h2] at hc
      exact absurd hc (by simp)
    · rw [h2] at hc
      dsimp only at hc
      by_cases hall : r.all (· = '.')
      · rw [if_pos hall] at hc
        exact absurd hc (by simp)
      · rw [if_neg hall] at hc
        have hbe := (splitLastChar_eq '.' base r e h2).1
        have hc2 : c = '.' ∨ c ∈ e := by simpa using hc
        rcases hc2 with hc2 | hc2
        · subst hc2; decide
        · intro hcs
          exact hb (hbe ▸ List.mem_append_right r
            (List.mem_cons_of_mem '.' (hcs ▸ hc2)))
  intro c hc
  unfold splitext at hc
  rcases h1 : splitLastChar '/' p with _ | ⟨a, b⟩ <;> rw [h1] at hc <;>
    dsimp only at hc
  · exact key [] p (splitLastChar_none '/' p h1) c hc
  · exact key (a ++ ['/']) b (splitLastChar_eq '/' p a b h1).2 c hc

/-- C7 counterexample: `_safe_filename_from_url` only lowercases the
extension, so a percent-encoded NUL byte in it survives into the returned
name, which is therefore not a legal (filesystem-safe) file name. -/
theorem safe_filename_nul_counterexample :
    safe_filename_from_url (lit "https://animezen.net/f.mid%00") =
        some (lit "f.mid\x00") ∧
      Char.ofNat 0 ∈ lit "f.mid\x00" := by decide

/-- C7 (amended): for every URL accepted by the parser,
`_safe_filename_from_url` takes the URL path's basename, percent-decodes it,
splits it into root and extension (defaulting the extension to `.mid` when
absent), slugifies the root, lowercases the extension and concatenates; the
result is non-empty and contains no `/` path separator.  It is not fully
filesystem-safe: only the root is sanitised, and decoded bytes such as an
encoded NUL survive in the extension. -/
theorem safe_filename_spec (url fn : Str)
    (h : safe_filename_from_url url = some fn) :
    fn ≠ [] ∧ (∀ c ∈ fn, c ≠ '/') ∧
      ∃ parsed params root ext,
        urlparse [] url = some (parsed, params) ∧
        splitext (unquote (pyBasename parsed.path)) = (root, ext) ∧
        fn = slugify root 120 ++ pyLower (if ext = [] then lit ".mid" else ext) := by
  unfold safe_filename_from_url at h
  rcases hp : urlparse [] url with _ | ⟨parsed, params⟩ <;> rw [hp] at h
  · simp [bind, Option.bind] at h
  · simp only [bind, Option.bind, Option.pure_def] at h
    rcases hs : splitext (unquote (pyBasename parsed.path)) with ⟨root, ext⟩
    rw [hs] at h
    simp only [Option.some.injEq] at h
    subst h
    refine ⟨?_, ?_, parsed, params, root, ext, rfl, hs, rfl⟩
    · intro h0
      exact (slugify_spec root 120).2.1 (List.append_eq_nil.mp h0).1
    · intro c hc
      rcases List.mem_append.mp hc with hc | hc
      · intro hcs
        have := slugify_chars root 120 c hc
        rw [hcs] at this
        simp [isSlugChar] at this
      · rcases List.mem_map.mp hc with ⟨d, hd, hdc⟩
        subst hdc
        split at hd
        · have hm : ∀ x ∈ pyLower (lit ".mid"), x ≠ '/' := by decide
          exact hm _ (List.mem_map_of_mem asciiLower hd)
        · refine asciiLower_ne d '/' (Or.inl (by decide)) ?_
          exact splitext_no_slash _ d (by rw [hs]; exact hd)

/-- Witness for `safe_filename_spec` at a concrete URL. -/
theorem safe_filename_spec_witness :
    lit "a-b.mid" ≠ [] ∧ (∀ c ∈ lit "a-b.mid", c ≠ '/') ∧
      ∃ parsed params root ext,
        urlparse [] (lit "https://x/A%20B.MID?q=1") = some (parsed, params) ∧
        splitext (unquote (pyBasename parsed.path)) = (root, ext) ∧
        lit "a-b.mid" = slugify root 120 ++ pyLower (if ext = [] then lit ".mid" else ext) :=
  safe_filename_spec (lit "https://x/A%20B.MID?q=1") (lit "a-b.mid") (by decide)


/-! ## The download loop -/

theorem dlLoop_atomic (backoff : ℚ) (attempts : List AttemptResult) :
    ∀ (i : Nat) (fs : FS) (le : Option Str), fs.dest = none →
      (∀ t ∈ (dlLoop backoff i fs le attempts).trace,
          t.mid.dest = none ∧
            (t.failed = true → t.after.tmp = none ∧ t.after.dest = none)) ∧
      ((dlLoop backoff i fs le attempts).downloaded = true →
          ∃ chunks, AttemptResult.success chunks ∈ attempts ∧
            (dlLoop backoff i fs le attempts).fs = ⟨some chunks.flatten, none⟩) ∧
      ((dlLoop backoff i fs le attempts).downloaded = false →
          (dlLoop backoff i fs le attempts).fs.dest = none ∧
            (attempts ≠ [] → (dlLoop backoff i fs le attempts).fs.tmp = none)) := by
  induction attempts with
  | nil =>
    intro i fs le hd
    simp [dlLoop, hd]
  | cons a rest ih =>
    intro i fs le hd
    cases a with
    | success chunks =>
      refine ⟨?_, ?_, ?_⟩
      · intro t ht
        simp only [dlLoop, attemptOnce, List.mem_singleton] at ht
        subst ht
        simp [hd]
      · intro _
        exact ⟨chunks, List.mem_cons_self _ _, rfl⟩
      · intro hcontra
        simp [dlLoop, attemptOnce] at hcontra
    | connectFail msg =>
      by_cases hrest : rest = []
      · subst hrest
        refine ⟨?_, ?_, ?_⟩
        · intro t ht
          simp [dlLoop, attemptOnce] at ht
          subst ht
          simp [hd]
        · intro hcontra
          simp [dlLoop, attemptOnce] at hcontra
        · intro _
          simp [dlLoop, attemptOnce, hd]
      · have hafter : (FS.mk fs.dest none).dest = none := hd
        obtain ⟨ih1, ih2, ih3⟩ := ih (i + 1) ⟨fs.dest, none⟩ (some msg) hafter
        have hun : dlLoop backoff i fs le (.connectFail msg :: rest) =
            ⟨(dlLoop backoff (i+1) ⟨fs.dest, none⟩ (some msg) rest).fs,
             (dlLoop backoff (i+1) ⟨fs.dest, none⟩ (some msg) rest).downloaded,
             (dlLoop backoff (i+1) ⟨fs.dest, none⟩ (some msg) rest).msg,
             backoff * 2 ^ i :: (dlLoop backoff (i+1) ⟨fs.dest, none⟩ (some msg) rest).sleeps,
             (dlLoop backoff (i+1) ⟨fs.dest, none⟩ (some msg) rest).calls + 1,
             ⟨fs, ⟨fs.dest, none⟩, true⟩ :: (dlLoop backoff (i+1) ⟨fs.dest, none⟩ (some msg) rest).trace⟩ := by
          simp [dlLoop, attemptOnce, hrest]
        rw [hun]
        refine ⟨?_, ?_, ?_⟩
        · intro t ht
          rcases List.mem_cons.mp ht with ht | ht
          · subst ht
            exact ⟨hd, fun _ => ⟨rfl, hd⟩⟩
          · exact ih1 t ht
        · intro hok
          obtain ⟨c, hc, hfs⟩ := ih2 hok
          exact ⟨c, List.mem_cons_of_mem _ hc, hfs⟩
        · intro hko
          exact ⟨(ih3 hko).1, fun _ => (ih3 hko).2 hrest⟩
    | midFail written msg =>
      by_cases hrest : rest = []
      · subst hrest
        refine ⟨?_, ?_, ?_⟩
        · intro t ht
          simp [dlLoop, attemptOnce] at ht
          subst ht
          simp [hd]
        · intro hcontra
          simp [dlLoop, attemptOnce] at hcontra
        · intro _
          simp [dlLoop, attemptOnce, hd]
      · have hafter : (FS.mk fs.dest none).dest = none := hd
        obtain ⟨ih1, ih2, ih3⟩ := ih (i + 1) ⟨fs.dest, none⟩ (some msg) hafter
        have hun : dlLoop backoff i fs le (.midFail written msg :: rest) =
            ⟨(dlLoop backoff (i+1) ⟨fs.dest, none⟩ (some msg) rest).fs,
             (dlLoop backoff (i+1) ⟨fs.dest, none⟩ (some msg) rest).downloaded,
             (dlLoop backoff (i+1) ⟨fs.dest, none⟩ (some msg) rest).msg,
             backoff * 2 ^ i :: (dlLoop backoff (i+1) ⟨fs.dest, none⟩ (some msg) rest).sleeps,
             (dlLoop backoff (i+1) ⟨fs.dest, none⟩ (some msg) rest).calls + 1,
             ⟨⟨fs.dest, some written.flatten⟩, ⟨fs.dest, none⟩, true⟩ ::
               (dlLoop backoff (i+1) ⟨fs.dest, none⟩ (some msg) rest).trace⟩ := by
          simp [dlLoop, attemptOnce, hrest]
        rw [hun]
        refine ⟨?_, ?_, ?_⟩
        · intro t ht
          rcases List.mem_cons.mp ht with ht | ht
          · subst ht
            exact ⟨hd, fun _ => ⟨rfl, hd⟩⟩
          · exact ih1 t ht
        · intro hok
          obtain ⟨c, hc, hfs⟩ := ih2 hok
          exact ⟨c, List.mem_cons_of_mem _ hc, hfs⟩
        · intro hko
          exact ⟨(ih3 hko).1, fun _ => (ih3 hko).2 hrest⟩

theorem dlLoop_cons_fail (backoff : ℚ) (i : Nat) (fs : FS) (le : Option Str)
    (a : AttemptResult) (rest : List AttemptResult) (ha : attemptFails a = true)
    (hrest : rest ≠ []) :
    dlLoop backoff i fs le (a :: rest) =
      ⟨(dlLoop backoff (i+1) ⟨fs.dest, none⟩ (some (attemptMsg a)) rest).fs,
       (dlLoop backoff (i+1) ⟨fs.dest, none⟩ (some (attemptMsg a)) rest).downloaded,
       (dlLoop backoff (i+1) ⟨fs.dest, none⟩ (some (attemptMsg a)) rest).msg,
       backoff * 2 ^ i ::
         (dlLoop backoff (i+1) ⟨fs.dest, none⟩ (some (attemptMsg a)) rest).sleeps,
       (dlLoop backoff (i+1) ⟨fs.dest, none⟩ (some (attemptMsg a)) rest).calls + 1,
       ⟨(attemptOnce fs a).1, ⟨fs.dest, none⟩, true⟩ ::
         (dlLoop backoff (i+1) ⟨fs.dest, none⟩ (some (attemptMsg a)) rest).trace⟩ := by
  cases a with
  | success chunks => simp [attemptFails] at ha
  | connectFail m => simp [dlLoop, attemptOnce, hrest, attemptMsg]
  | midFail w m => simp [dlLoop, attemptOnce, hrest, attemptMsg]

theorem dlLoop_allfail (backoff : ℚ) :
    ∀ (fails : List AttemptResult), fails ≠ [] →
      (∀ a ∈ fails, attemptFails a = true) →
      ∀ (i : Nat) (fs : FS) (le : Option Str),
        (dlLoop backoff i fs le fails).downloaded = false ∧
        (dlLoop backoff i fs le fails).msg =
          lit "error: " ++ attemptMsg (fails.getLastD (.connectFail [])) ∧
        (dlLoop backoff i fs le fails).sleeps =
          (List.range' i (fails.length - 1)).map (fun j => backoff * 2 ^ j) ∧
        (dlLoop backoff i fs le fails).calls = fails.length ∧
        (dlLoop backoff i fs le fails).fs = ⟨fs.dest, none⟩ := by
  intro fails
  induction fails with
  | nil => intro h; exact absurd rfl h
  | cons a rest ih =>
    intro _ hf i fs le
    by_cases hrest : rest = []
    · subst hrest
      cases a with
      | success chunks =>
        have := hf _ (List.mem_cons_self _ _)
        simp [attemptFails] at this
      | connectFail m => simp [dlLoop, attemptOnce, attemptMsg]
      | midFail w m => simp [dlLoop, attemptOnce, attemptMsg]
    · have hfr : ∀ x ∈ rest, attemptFails x = true :=
        fun x hx => hf x (List.mem_cons_of_mem _ hx)
      obtain ⟨h1, h2, h3, h4, h5⟩ := ih hrest hfr (i+1) ⟨fs.dest, none⟩
        (some (attemptMsg a))
      rw [dlLoop_cons_fail backoff i fs le a rest (hf a (List.mem_cons_self _ _)) hrest]
      refine ⟨h1, ?_, ?_, ?_, h5⟩
      · rw [h2]
        congr 2
        rw [List.getLastD_cons, List.getLastD_eq_getLast?, List.getLastD_eq_getLast?]
        cases hy : rest.getLast? with
        | none => exact absurd (List.getLast?_eq_none_iff.mp hy) hrest
        | some y => rfl
      · rw [h3]
        have hlen : (a :: rest).length - 1 = rest.length - 1 + 1 := by
          cases rest with
          | nil => exact absurd rfl hrest
          | cons b bs => simp
        rw [hlen, List.range'_succ, List.map_cons]
      · rw [h4]; simp

theorem dlLoop_success (backoff : ℚ) (chunks : List Str) :
    ∀ (fails : List AttemptResult), (∀ a ∈ fails, attemptFails a = true) →
      ∀ (rest : List AttemptResult) (i : Nat) (fs : FS) (le : Option Str),
        (dlLoop backoff i fs le (fails ++ .success chunks :: rest)).fs =
            ⟨some chunks.flatten, none⟩ ∧
        (dlLoop backoff i fs le (fails ++ .success chunks :: rest)).downloaded = true ∧
        (dlLoop backoff i fs le (fails ++ .success chunks :: rest)).msg =
            lit "downloaded" ∧
        (dlLoop backoff i fs le (fails ++ .success chunks :: rest)).sleeps =
            (List.range' i fails.length).map (fun j => backoff * 2 ^ j) ∧
        (dlLoop backoff i fs le (fails ++ .success chunks :: rest)).calls =
            fails.length + 1 := by
  intro fails
  induction fails with
  | nil =>
    intro _ rest i fs le
    simp [dlLoop, attemptOnce]
  | cons a fails' ih =>
    intro hf rest i fs le
    have hrest : fails' ++ AttemptResult.success chunks :: rest ≠ [] := by
      simp
    obtain ⟨h1, h2, h3, h4, h5⟩ := ih
      (fun x hx => hf x (List.mem_cons_of_mem _ hx)) rest (i+1) ⟨fs.dest, none⟩
      (some (attemptMsg a))
    rw [List.cons_append,
      dlLoop_cons_fail backoff i fs le a _ (hf a (List.mem_cons_self _ _)) hrest]
    refine ⟨h1, h2, h3, ?_, ?_⟩
    · rw [h4]
      have : (a :: fails').length = fails'.length + 1 := by simp
      rw [this, List.range'_succ, List.map_cons]
    · rw [h5]; simp

/-- C1: with nothing at the destination, the download streams only to the
`.part` temporary: nothing is ever at the destination during a transfer,
every failed attempt deletes the partial temporary file (before the retry or
the final error) while the destination stays absent, and the temporary is
renamed onto the destination only on full success, after which the
destination holds the complete streamed body and the temporary is gone;
without a success the destination stays absent. -/
theorem download_file_atomic (net : List AttemptResult) (retries : Nat)
    (backoff : ℚ) (dryRun : Bool) (fs : FS) (hdest : fs.dest = none) :
    (∀ t ∈ (download_file net retries backoff dryRun fs).trace,
        t.mid.dest = none ∧
          (t.failed = true → t.after.tmp = none ∧ t.after.dest = none)) ∧
    ((download_file net retries backoff dryRun fs).downloaded = true →
        ∃ chunks, AttemptResult.success chunks ∈ net ∧
          (download_file net retries backoff dryRun fs).fs =
            ⟨some chunks.flatten, none⟩) ∧
    ((download_file net retries backoff dryRun fs).downloaded = false →
        (download_file net retries backoff dryRun fs).fs.dest = none) := by
  have hnotsome : fs.dest.isSome = false := by rw [hdest]; rfl
  by_cases hdry : dryRun = true
  · unfold download_file
    rw [hnotsome, hdry]
    simp [hdest]
  · have hdry' : dryRun = false := by simpa using hdry
    have heq : download_file net retries backoff dryRun fs =
        dlLoop backoff 0 fs none (net.take (retries + 1)) := by
      unfold download_file
      rw [hnotsome, hdry']
      simp
    rw [heq]
    obtain ⟨h1, h2, h3⟩ :=
      dlLoop_atomic backoff (net.take (retries + 1)) 0 fs none hdest
    refine ⟨h1, ?_, fun hko => (h3 hko).1⟩
    intro hok
    obtain ⟨c, hc, hfs⟩ := h2 hok
    exact ⟨c, List.take_subset _ _ hc, hfs⟩

/-- Witness for `download_file_atomic`: a concrete run whose first attempt
fails mid-stream and whose second succeeds. -/
theorem download_file_atomic_witness :
    (∀ t ∈ (download_file [.midFail [lit "AB"] (lit "boom"),
          .success [lit "DATA"]] 2 1 false ⟨none, none⟩).trace,
        t.mid.dest = none ∧
          (t.failed = true → t.after.tmp = none ∧ t.after.dest = none)) ∧
    ((download_file [.midFail [lit "AB"] (lit "boom"),
          .success [lit "DATA"]] 2 1 false ⟨none, none⟩).downloaded = true →
        ∃ chunks, AttemptResult.success chunks ∈
            [AttemptResult.midFail [lit "AB"] (lit "boom"),
             AttemptResult.success [lit "DATA"]] ∧
          (download_file [.midFail [lit "AB"] (lit "boom"),
            .success [lit "DATA"]] 2 1 false ⟨none, none⟩).fs =
              ⟨some chunks.flatten, none⟩) ∧
    ((download_file [.midFail [lit "AB"] (lit "boom"),
          .success [lit "DATA"]] 2 1 false ⟨none, none⟩).downloaded = false →
        (download_file [.midFail [lit "AB"] (lit "boom"),
          .success [lit "DATA"]] 2 1 false ⟨none, none⟩).fs.dest = none) :=
  download_file_atomic _ 2 1 false ⟨none, none⟩ rfl

theorem download_file_exists_skip (net : List AttemptResult) (retries : Nat)
    (backoff : ℚ) (dryRun : Bool) (fs : FS) (hsome : fs.dest.isSome = true) :
    download_file net retries backoff dryRun fs =
      ⟨fs, false, lit "exists", [], 0, []⟩ := by
  unfold download_file
  rw [hsome]
  simp

/-- C2: an existing destination short-circuits to `exists` with zero network
attempts and the filesystem untouched (so the first call's content is
preserved); with the destination absent and the dry-run flag set, the call
returns `dry-run` with zero network attempts and no filesystem write; and
after a successful download, any second download to the same destination
returns `exists` with zero network attempts, leaving the downloaded content
untouched — calling download twice performs exactly one transfer. -/
theorem download_file_frame (net net2 : List AttemptResult)
    (retries retries2 : Nat) (backoff backoff2 : ℚ) (dryRun dryRun2 : Bool)
    (fs : FS) :
    (fs.dest.isSome = true →
      download_file net retries backoff dryRun fs =
        ⟨fs, false, lit "exists", [], 0, []⟩) ∧
    (fs.dest = none →
      download_file net retries backoff true fs =
        ⟨fs, false, lit "dry-run", [], 0, []⟩) ∧
    (fs.dest = none →
      (download_file net retries backoff false fs).downloaded = true →
      download_file net2 retries2 backoff2 dryRun2
          (download_file net retries backoff false fs).fs =
        ⟨(download_file net retries backoff false fs).fs, false,
          lit "exists", [], 0, []⟩) := by
  refine ⟨fun hsome => download_file_exists_skip net retries backoff dryRun fs hsome, ?_, ?_⟩
  · intro hdest
    have hnotsome : fs.dest.isSome = false := by rw [hdest]; rfl
    unfold download_file
    rw [hnotsome]
    simp
  · intro hdest hok
    have hnotsome : fs.dest.isSome = false := by rw [hdest]; rfl
    have heq : download_file net retries backoff false fs =
        dlLoop backoff 0 fs none (net.take (retries + 1)) := by
      unfold download_file
      rw [hnotsome]
      simp
    obtain ⟨_, h2, _⟩ :=
      dlLoop_atomic backoff (net.take (retries + 1)) 0 fs none hdest
    obtain ⟨c, _, hfs⟩ := h2 (by rw [← heq]; exact hok)
    have hsome2 : (download_file net retries backoff false fs).fs.dest.isSome = true := by
      rw [heq, hfs]
      rfl
    exact download_file_exists_skip net2 retries2 backoff2 dryRun2 _ hsome2

/-- Witness for `download_file_frame`: concrete first call succeeds, the
repeat call short-circuits to `exists`. -/
theorem download_file_frame_witness :
    download_file [] 2 1 false
        (download_file [.success [lit "DATA"]] 2 1 false ⟨none, none⟩).fs =
      ⟨(download_file [.success [lit "DATA"]] 2 1 false ⟨none, none⟩).fs, false,
        lit "exists", [], 0, []⟩ :=
  (download_file_frame [.success [lit "DATA"]] [] 2 2 1 1 false false
    ⟨none, none⟩).2.2 rfl (by decide)

/-- C3: with the destination absent and not in dry-run, when the oracle's
`retries + 1` attempts all fail, the download makes exactly `retries + 1`
network attempts, sleeps `backoff * 2^attempt` seconds after every failed
attempt but the last, and returns an `error` outcome carrying the last
failure's message — it always returns an outcome value (the model is a total
function; no exception escapes).  When the first `k ≤ retries` attempts fail
and the next succeeds, the outcome is `downloaded`, the destination holds
the streamed body, and the sleeps are `backoff * 2^0, …, backoff * 2^(k-1)`
(for `k = 2`, `retries = 2`: `backoff` then `backoff × 2`). -/
theorem download_file_retry (retries : Nat) (backoff : ℚ) (fs : FS)
    (hdest : fs.dest = none) :
    (∀ net : List AttemptResult, net.length = retries + 1 →
      (∀ a ∈ net, attemptFails a = true) →
      (download_file net retries backoff false fs).downloaded = false ∧
      (download_file net retries backoff false fs).msg =
        lit "error: " ++ attemptMsg (net.getLastD (.connectFail [])) ∧
      (download_file net retries backoff false fs).sleeps =
        (List.range retries).map (fun j => backoff * 2 ^ j) ∧
      (download_file net retries backoff false fs).calls = retries + 1) ∧
    (∀ (fails : List AttemptResult) (chunks : List Str)
        (rest : List AttemptResult),
      (∀ a ∈ fails, attemptFails a = true) → fails.length ≤ retries →
      (download_file (fails ++ .success chunks :: rest) retries backoff false fs).downloaded = true ∧
      (download_file (fails ++ .success chunks :: rest) retries backoff false fs).msg =
        lit "downloaded" ∧
      (download_file (fails ++ .success chunks :: rest) retries backoff false fs).fs =
        ⟨some chunks.flatten, none⟩ ∧
      (download_file (fails ++ .success chunks :: rest) retries backoff false fs).sleeps =
        (List.range fails.length).map (fun j => backoff * 2 ^ j) ∧
      (download_file (fails ++ .success chunks :: rest) retries backoff false fs).calls =
        fails.length + 1) := by
  have hnotsome : fs.dest.isSome = false := by rw [hdest]; rfl
  constructor
  · intro net hlen hf
    have heq : download_file net retries backoff false fs =
        dlLoop backoff 0 fs none (net.take (retries + 1)) := by
      unfold download_file
      rw [hnotsome]
      simp
    have htake : net.take (retries + 1) = net := List.take_of_length_le (by omega)
    rw [heq, htake]
    have hne : net ≠ [] := by
      intro h0
      rw [h0] at hlen
      simp at hlen
    obtain ⟨h1, h2, h3, h4, _⟩ := dlLoop_allfail backoff net hne hf 0 fs none
    refine ⟨h1, h2, ?_, by rw [h4, hlen]⟩
    rw [h3, hlen, List.range_eq_range']
    simp
  · intro fails chunks rest hf hlen
    have heq : download_file (fails ++ .success chunks :: rest) retries backoff false fs =
        dlLoop backoff 0 fs none
          ((fails ++ .success chunks :: rest).take (retries + 1)) := by
      unfold download_file
      rw [hnotsome]
      simp
    have htake : (fails ++ .success chunks :: rest).take (retries + 1) =
        fails ++ .success chunks :: rest.take (retries - fails.length) := by
      rw [List.take_append_eq_append_take,
        List.take_of_length_le (by omega)]
      congr 1
      have : retries + 1 - fails.length = (retries - fails.length) + 1 := by omega
      rw [this, List.take_succ_cons]
    rw [heq, htake]
    obtain ⟨h1, h2, h3, h4, h5⟩ := dlLoop_success backoff chunks fails hf
      (rest.take (retries - fails.length)) 0 fs none
    refine ⟨h2, h3, h1, ?_, h5⟩
    rw [h4, List.range_eq_range']

/-- Witness for `download_file_retry`: `max_retries = 2` against an oracle
that fails twice then succeeds gives a `downloaded` outcome with sleeps
`backoff, backoff × 2` (`backoff = 1`). -/
theorem download_file_retry_witness :
    (download_file ([.connectFail (lit "timed out"), .midFail [] (lit "reset")]
        ++ .success [lit "DATA"] :: []) 2 1 false ⟨none, none⟩).downloaded = true ∧
    (download_file ([.connectFail (lit "timed out"), .midFail [] (lit "reset")]
        ++ .success [lit "DATA"] :: []) 2 1 false ⟨none, none⟩).msg =
      lit "downloaded" ∧
    (download_file ([.connectFail (lit "timed out"), .midFail [] (lit "reset")]
        ++ .success [lit "DATA"] :: []) 2 1 false ⟨none, none⟩).fs =
      ⟨some (List.flatten [lit "DATA"]), none⟩ ∧
    (download_file ([.connectFail (lit "timed out"), .midFail [] (lit "reset")]
        ++ .success [lit "DATA"] :: []) 2 1 false ⟨none, none⟩).sleeps =
      (List.range (List.length [AttemptResult.connectFail (lit "timed out"),
        AttemptResult.midFail [] (lit "reset")])).map (fun j => (1 : ℚ) * 2 ^ j) ∧
    (download_file ([.connectFail (lit "timed out"), .midFail [] (lit "reset")]
        ++ .success [lit "DATA"] :: []) 2 1 false ⟨none, none⟩).calls =
      List.length [AttemptResult.connectFail (lit "timed out"),
        AttemptResult.midFail [] (lit "reset")] + 1 :=
  (download_file_retry 2 1 ⟨none, none⟩ rfl).2
    [.connectFail (lit "timed out"), .midFail [] (lit "reset")]
    [lit "DATA"] [] (by decide) (by decide)

/-! ## `iter_selected` -/

/-- C10: a non-negative limit truncates the list to its first N entries; a
negative or absent limit returns the list unchanged. -/
theorem iter_selected_spec {α : Type} (items : List α) :
    (∀ l : Int, 0 ≤ l → iter_selected items (some l) = items.take l.toNat) ∧
    (∀ l : Int, l < 0 → iter_selected items (some l) = items) ∧
    iter_selected items none = items := by
  refine ⟨?_, ?_, rfl⟩
  · intro l hl
    simp [iter_selected, not_lt.mpr hl]
  · intro l hl
    simp [iter_selected, hl]

/-- Witness for `iter_selected_spec` at concrete limits. -/
theorem iter_selected_spec_witness :
    iter_selected [10, 20, 30] (some 2) = List.take (Int.toNat 2) [10, 20, 30] ∧
      iter_selected [10, 20, 30] (some (-1)) = [10, 20, 30] :=
  ⟨(iter_selected_spec [10, 20, 30]).1 2 (by decide),
   (iter_selected_spec [10, 20, 30]).2.1 (-1) (by decide)⟩

/-! ## Percent-encoding lemmas -/

theorem splitOnceChar_none (c : Char) : ∀ s : Str, splitOnceChar c s = none → c ∉ s := by
  intro s
  induction s with
  | nil => simp
  | cons x rest ih =>
    intro h hmem
    simp only [splitOnceChar] at h
    by_cases hx : x = c
    · simp [hx] at h
    · rw [if_neg hx] at h
      cases hr : splitOnceChar c rest with
      | none =>
        rcases List.mem_cons.mp hmem with h1 | h1
        · exact hx h1.symm
        · exact ih hr h1
      | some ab =>
        rw [hr] at h
        cases ab
        simp at h

theorem splitOnceChar_append (c : Char) :
    ∀ (a b : Str), c ∉ a → splitOnceChar c (a ++ c :: b) = some (a, b) := by
  intro a
  induction a with
  | nil => intro b _; simp [splitOnceChar]
  | cons x a' ih =>
    intro b hmem
    have hx : x ≠ c := fun h => hmem (h ▸ List.mem_cons_self _ _)
    have hih := ih b (fun h => hmem (List.mem_cons_of_mem _ h))
    rw [List.cons_append]
    unfold splitOnceChar
    rw [if_neg hx, hih]

theorem splitOnceChar_not_mem (c : Char) : ∀ s : Str, c ∉ s → splitOnceChar c s = none := by
  intro s
  induction s with
  | nil => intro _; rfl
  | cons x rest ih =>
    intro hmem
    have hx : x ≠ c := fun h => hmem (h ▸ List.mem_cons_self _ _)
    simp only [splitOnceChar, if_neg hx,
      ih (fun h => hmem (List.mem_cons_of_mem _ h))]

theorem splitnetloc_append (n rest : Str)
    (hn : ∀ c ∈ n, ¬(c = '/' ∨ c = '?' ∨ c = '#'))
    (hrest : rest = [] ∨ ∃ d rest', rest = d :: rest' ∧ (d = '/' ∨ d = '?' ∨ d = '#')) :
    splitnetloc (n ++ rest) = (n, rest) := by
  induction n with
  | nil =>
    rcases hrest with rfl | ⟨d, r', rfl, hd⟩
    · rfl
    · unfold splitnetloc
      rw [List.nil_append, List.takeWhile_cons, List.dropWhile_cons,
        if_neg (by simp [hd]), if_neg (by simp [hd])]
  | cons x n' ih =>
    have hx := hn x (List.mem_cons_self _ _)
    have hih := ih (fun c hc => hn c (List.mem_cons_of_mem _ hc))
    simp only [splitnetloc] at hih ⊢
    simp only [List.cons_append, List.takeWhile_cons, List.dropWhile_cons]
    rw [if_pos (by simpa using hx), if_pos (by simpa using hx)]
    simp only [Prod.mk.injEq] at hih ⊢
    exact ⟨by rw [hih.1], hih.2⟩

theorem stripUnsafe_id {s : Str}
    (h : ∀ c ∈ s, ¬(c = '\t' ∨ c = '\r' ∨ c = '\n')) : stripUnsafe s = s := by
  unfold stripUnsafe
  rw [List.filter_eq_self]
  intro c hc
  simpa using h c hc

theorem charLe_iff {c d : Char} : c ≤ d ↔ c.toNat ≤ d.toNat := by
  constructor
  · exact charLe_toNat
  · intro h
    simp only [Char.le_def, UInt32.le_def, BitVec.le_def]
    exact h

theorem asciiLower_toNat {c : Char} (h : 'A' ≤ c ∧ c ≤ 'Z') :
    (asciiLower c).toNat = c.toNat + 32 := by
  unfold asciiLower
  rw [if_pos h]
  have h2 : c.toNat ≤ 90 := by
    have := charLe_toNat h.2
    simpa using this
  exact charOfNat_toNat (by simp only [Char.toNat] at h2 ⊢; omega)

theorem asciiLower_eq_self {c : Char} (h : ¬('A' ≤ c ∧ c ≤ 'Z')) :
    asciiLower c = c := by
  unfold asciiLower
  rw [if_neg h]

theorem asciiLower_idem (c : Char) : asciiLower (asciiLower c) = asciiLower c := by
  by_cases h : 'A' ≤ c ∧ c ≤ 'Z'
  · have ht := asciiLower_toNat h
    apply asciiLower_eq_self
    rintro ⟨hA, hZ⟩
    have hAv : ('A' : Char).toNat = 65 := rfl
    have hZv : ('Z' : Char).toNat = 90 := rfl
    have h1 := charLe_toNat hA
    have h2 := charLe_toNat hZ
    have h3 := charLe_toNat h.1
    omega
  · rw [asciiLower_eq_self h, asciiLower_eq_self h]

theorem pyLower_idem (s : Str) : pyLower (pyLower s) = pyLower s := by
  induction s with
  | nil => rfl
  | cons c rest ih =>
    simp only [pyLower, List.map_cons] at ih ⊢
    rw [asciiLower_idem]
    exact congrArg _ (by simpa [pyLower] using ih)

theorem isAsciiAlpha_lower {c : Char} (h : isAsciiAlpha c = true) :
    isAsciiAlpha (asciiLower c) = true := by
  by_cases hAZ : 'A' ≤ c ∧ c ≤ 'Z'
  · have ht := asciiLower_toNat hAZ
    have h1 : 65 ≤ c.toNat := by simpa using charLe_toNat hAZ.1
    have h2 : c.toNat ≤ 90 := by simpa using charLe_toNat hAZ.2
    simp only [isAsciiAlpha, Bool.or_eq_true, decide_eq_true_eq]
    left
    constructor
    · rw [charLe_iff]
      simp only [ht]
      have : ('a' : Char).toNat = 97 := rfl
      omega
    · rw [charLe_iff]
      simp only [ht]
      have : ('z' : Char).toNat = 122 := rfl
      omega
  · rw [asciiLower_eq_self hAZ]
    exact h

theorem isSchemeChar_lower {c : Char} (h : isSchemeChar c = true) :
    isSchemeChar (asciiLower c) = true := by
  by_cases hAZ : 'A' ≤ c ∧ c ≤ 'Z'
  · have ht := asciiLower_toNat hAZ
    have h1 : 65 ≤ c.toNat := by simpa using charLe_toNat hAZ.1
    have h2 : c.toNat ≤ 90 := by simpa using charLe_toNat hAZ.2
    simp only [isSchemeChar, Bool.or_eq_true, decide_eq_true_eq]
    left
    constructor
    · rw [charLe_iff]
      simp only [ht]
      have : ('a' : Char).toNat = 97 := rfl
      omega
    · rw [charLe_iff]
      simp only [ht]
      have : ('z' : Char).toNat = 122 := rfl
      omega
  · rw [asciiLower_eq_self hAZ]
    exact h

theorem schemeSplit_explicit (d sch rest : Str)
    (hne : sch ≠ []) (hcolon : ':' ∉ sch)
    (hhead : isAsciiAlpha (sch.headD 'x') = true)
    (hall : sch.all isSchemeChar = true) :
    schemeSplit d (sch ++ ':' :: rest) = (pyLower sch, rest) := by
  unfold schemeSplit
  rw [splitOnceChar_append ':' sch rest hcolon]
  dsimp only
  rw [if_pos ⟨hne, hhead, hall⟩]

theorem take2_slash2 (x : Str) : (lit "//" ++ x).take 2 = lit "//" := rfl

theorem lstripC0_append_alpha (sch A : Str) (hne : sch ≠ [])
    (hhead : isAsciiAlpha (sch.headD 'x') = true) :
    lstripC0 (sch ++ A) = sch ++ A := by
  cases sch with
  | nil => exact absurd rfl hne
  | cons s0 st =>
    have h1 : isAsciiAlpha s0 = true := hhead
    have h0 : ¬(isC0OrSpace s0 = true) := by
      simp only [isAsciiAlpha, Bool.or_eq_true, decide_eq_true_eq] at h1
      simp only [isC0OrSpace, decide_eq_true_eq]
      have ha : ('a' : Char).toNat = 97 := rfl
      have hA2 : ('A' : Char).toNat = 65 := rfl
      rcases h1 with ⟨hl, _⟩ | ⟨hl, _⟩
      · have hx := charLe_toNat hl
        omega
      · have hx := charLe_toNat hl
        omega
    rw [List.cons_append]
    unfold lstripC0
    rw [List.dropWhile_cons, if_neg h0]

theorem urlsplit_build (d sch netloc path query frag : Str)
    (hsch_ne : sch ≠ []) (hsch_colon : ':' ∉ sch)
    (hsch_head : isAsciiAlpha (sch.headD 'x') = true)
    (hsch_all : sch.all isSchemeChar = true)
    (hsch_lower : pyLower sch = sch)
    (hsch_tab : ∀ c ∈ sch, ¬(c = '\t' ∨ c = '\r' ∨ c = '\n'))
    (hn_delim : ∀ c ∈ netloc, ¬(c = '/' ∨ c = '?' ∨ c = '#'))
    (hn_tab : ∀ c ∈ netloc, ¬(c = '\t' ∨ c = '\r' ∨ c = '\n'))
    (hn_br : netlocBad netloc = false)
    (hp_q : '?' ∉ path) (hp_h : '#' ∉ path)
    (hp_tab : ∀ c ∈ path, ¬(c = '\t' ∨ c = '\r' ∨ c = '\n'))
    (hq_h : '#' ∉ query)
    (hq_tab : ∀ c ∈ query, ¬(c = '\t' ∨ c = '\r' ∨ c = '\n'))
    (hf_tab : ∀ c ∈ frag, ¬(c = '\t' ∨ c = '\r' ∨ c = '\n'))
    (hslash : path = [] ∨ path.take 1 = lit "/") :
    urlsplit d ((sch ++ ':' :: (lit "//" ++ netloc ++ path)) ++
        (if query ≠ [] then '?' :: query else []) ++
        (if frag ≠ [] then '#' :: frag else [])) =
      some ⟨sch, netloc, path, query, frag⟩ := by
  set Qopt := (if query ≠ [] then '?' :: query else []) with hQ
  set Fopt := (if frag ≠ [] then '#' :: frag else []) with hF
  have hQ_clean : ∀ c ∈ Qopt, ¬(c = '\t' ∨ c = '\r' ∨ c = '\n') := by
    rw [hQ]
    split
    · intro c hc
      rcases List.mem_cons.mp hc with rfl | hc
      · simp
      · exact hq_tab c hc
    · simp
  have hF_clean : ∀ c ∈ Fopt, ¬(c = '\t' ∨ c = '\r' ∨ c = '\n') := by
    rw [hF]
    split
    · intro c hc
      rcases List.mem_cons.mp hc with rfl | hc
      · simp
      · exact hf_tab c hc
    · simp
  have hQ_hash : '#' ∉ Qopt := by
    rw [hQ]
    split
    · simp only [List.mem_cons, not_or]
      exact ⟨by decide, hq_h⟩
    · simp
  have hW : stripUnsafe ((sch ++ ':' :: (lit "//" ++ netloc ++ path)) ++ Qopt ++ Fopt) =
      (sch ++ ':' :: (lit "//" ++ netloc ++ path)) ++ Qopt ++ Fopt := by
    apply stripUnsafe_id
    intro c hc
    rcases List.mem_append.mp hc with hc | hc
    · rcases List.mem_append.mp hc with hc | hc
      · rcases List.mem_append.mp hc with hc | hc
        · exact hsch_tab c hc
        · rcases List.mem_cons.mp hc with rfl | hc
          · simp
          · rcases List.mem_append.mp hc with hc | hc
            · rcases List.mem_append.mp hc with hc | hc
              · simp only [lit] at hc
                rcases List.mem_cons.mp hc with rfl | hc
                · simp
                · rcases List.mem_singleton.mp hc with rfl
                  simp
              · exact hn_tab c hc
            · exact hp_tab c hc
      · exact hQ_clean c hc
    · exact hF_clean c hc
  have hsplit : schemeSplit (stripUnsafe (stripC0 d))
      ((sch ++ ':' :: (lit "//" ++ netloc ++ path)) ++ Qopt ++ Fopt) =
      (sch, (lit "//" ++ netloc ++ path) ++ Qopt ++ Fopt) := by
    have hassoc : (sch ++ ':' :: (lit "//" ++ netloc ++ path)) ++ Qopt ++ Fopt =
        sch ++ ':' :: ((lit "//" ++ netloc ++ path) ++ Qopt ++ Fopt) := by
      simp [List.append_assoc]
    rw [hassoc, schemeSplit_explicit _ _ _ hsch_ne hsch_colon hsch_head hsch_all,
      hsch_lower]
  have htake : ((lit "//" ++ netloc ++ path) ++ Qopt ++ Fopt).take 2 = lit "//" := by
    rw [show (lit "//" ++ netloc ++ path) ++ Qopt ++ Fopt =
      lit "//" ++ (netloc ++ path ++ Qopt ++ Fopt) from by simp [List.append_assoc]]
    exact take2_slash2 _
  have hdrop : ((lit "//" ++ netloc ++ path) ++ Qopt ++ Fopt).drop 2 =
      netloc ++ (path ++ Qopt ++ Fopt) := by
    rw [show (lit "//" ++ netloc ++ path) ++ Qopt ++ Fopt =
      lit "//" ++ (netloc ++ (path ++ Qopt ++ Fopt)) from by simp [List.append_assoc]]
    rfl
  have hrestshape : path ++ Qopt ++ Fopt = [] ∨
      ∃ e rest', path ++ Qopt ++ Fopt = e :: rest' ∧ (e = '/' ∨ e = '?' ∨ e = '#') := by
    rcases hslash with rfl | hPslash
    · rw [hQ, hF]
      by_cases hq0 : query ≠ []
      · right
        refine ⟨'?', query ++ (if frag ≠ [] then '#' :: frag else []), ?_, by simp⟩
        rw [if_pos hq0]
        simp
      · by_cases hf0 : frag ≠ []
        · right
          refine ⟨'#', frag, ?_, by simp⟩
          rw [if_neg hq0, if_pos hf0]
          simp
        · left
          rw [if_neg hq0, if_neg hf0]
          simp
    · cases path with
      | nil => simp [lit] at hPslash
      | cons p0 prest =>
        right
        have hp0 : p0 = '/' := by
          simp [List.take, lit] at hPslash
          exact hPslash
        exact ⟨p0, prest ++ Qopt ++ Fopt, by simp [List.append_assoc], Or.inl hp0⟩
  have hfragstep : (match splitOnceChar '#' (path ++ Qopt ++ Fopt) with
      | some (a, b) => (a, b)
      | none => (path ++ Qopt ++ Fopt, ([] : Str))) = (path ++ Qopt, frag) := by
    rw [hF]
    by_cases hf0 : frag ≠ []
    · rw [if_pos hf0]
      have hnomem : '#' ∉ path ++ Qopt := by
        simp only [List.mem_append, not_or]
        exact ⟨hp_h, hQ_hash⟩
      rw [show path ++ Qopt ++ '#' :: frag = (path ++ Qopt) ++ '#' :: frag from by
        simp [List.append_assoc]]
      rw [splitOnceChar_append '#' _ _ hnomem]
    · rw [if_neg hf0]
      push_neg at hf0
      subst hf0
      have hnomem : '#' ∉ path ++ Qopt ++ [] := by
        simp only [List.append_nil, List.mem_append, not_or]
        exact ⟨hp_h, hQ_hash⟩
      rw [splitOnceChar_not_mem '#' _ hnomem]
      simp
  have hquerystep : (match splitOnceChar '?' (path ++ Qopt) with
      | some (a, b) => (a, b)
      | none => (path ++ Qopt, ([] : Str))) = (path, query) := by
    rw [hQ]
    by_cases hq0 : query ≠ []
    · rw [if_pos hq0]
      rw [splitOnceChar_append '?' _ _ hp_q]
    · rw [if_neg hq0]
      push_neg at hq0
      subst hq0
      rw [List.append_nil, splitOnceChar_not_mem '?' _ hp_q]
  have hL : lstripC0 ((sch ++ ':' :: (lit "//" ++ netloc ++ path)) ++ Qopt ++ Fopt) =
      (sch ++ ':' :: (lit "//" ++ netloc ++ path)) ++ Qopt ++ Fopt := by
    rw [show (sch ++ ':' :: (lit "//" ++ netloc ++ path)) ++ Qopt ++ Fopt =
      sch ++ (':' :: (lit "//" ++ netloc ++ path) ++ Qopt ++ Fopt) from by
        simp [List.append_assoc]]
    exact lstripC0_append_alpha sch _ hsch_ne hsch_head
  unfold urlsplit
  rw [hL, hW]
  dsimp only
  rw [hsplit]
  dsimp only
  rw [if_pos htake, hdrop,
    splitnetloc_append netloc (path ++ Qopt ++ Fopt) hn_delim hrestshape]
  dsimp only
  rw [if_neg (by simp [hn_br])]
  rw [hfragstep]
  dsimp only
  rw [hquerystep]

theorem urlsplit_build_nonetloc (d sch path query frag : Str)
    (hsch_ne : sch ≠ []) (hsch_colon : ':' ∉ sch)
    (hsch_head : isAsciiAlpha (sch.headD 'x') = true)
    (hsch_all : sch.all isSchemeChar = true)
    (hsch_lower : pyLower sch = sch)
    (hsch_tab : ∀ c ∈ sch, ¬(c = '\t' ∨ c = '\r' ∨ c = '\n'))
    (hp_q : '?' ∉ path) (hp_h : '#' ∉ path)
    (hp_tab : ∀ c ∈ path, ¬(c = '\t' ∨ c = '\r' ∨ c = '\n'))
    (hq_h : '#' ∉ query)
    (hq_tab : ∀ c ∈ query, ¬(c = '\t' ∨ c = '\r' ∨ c = '\n'))
    (hf_tab : ∀ c ∈ frag, ¬(c = '\t' ∨ c = '\r' ∨ c = '\n'))
    (hp2 : path.take 2 ≠ lit "//") :
    urlsplit d ((sch ++ ':' :: path) ++
        (if query ≠ [] then '?' :: query else []) ++
        (if frag ≠ [] then '#' :: frag else [])) =
      some ⟨sch, [], path, query, frag⟩ := by
  set Qopt := (if query ≠ [] then '?' :: query else []) with hQ
  set Fopt := (if frag ≠ [] then '#' :: frag else []) with hF
  have hQ_clean : ∀ c ∈ Qopt, ¬(c = '\t' ∨ c = '\r' ∨ c = '\n') := by
    rw [hQ]
    split
    · intro c hc
      rcases List.mem_cons.mp hc with rfl | hc
      · simp
      · exact hq_tab c hc
    · simp
  have hF_clean : ∀ c ∈ Fopt, ¬(c = '\t' ∨ c = '\r' ∨ c = '\n') := by
    rw [hF]
    split
    · intro c hc
      rcases List.mem_cons.mp hc with rfl | hc
      · simp
      · exact hf_tab c hc
    · simp
  have hQ_hash : '#' ∉ Qopt := by
    rw [hQ]
    split
    · simp only [List.mem_cons, not_or]
      exact ⟨by decide, hq_h⟩
    · simp
  have hQF_head : ∀ x rest, Qopt ++ Fopt = x :: rest → (x = '?' ∨ x = '#') := by
    intro x rest hx
    rw [hQ, hF] at hx
    by_cases hq0 : query ≠ []
    · rw [if_pos hq0] at hx
      simp only [List.cons_append, List.cons.injEq] at hx
      exact Or.inl hx.1.symm
    · rw [if_neg hq0] at hx
      by_cases hf0 : frag ≠ []
      · rw [if_pos hf0] at hx
        simp only [List.nil_append, List.cons.injEq] at hx
        exact Or.inr hx.1.symm
      · rw [if_neg hf0] at hx
        simp at hx
  have hW : stripUnsafe ((sch ++ ':' :: path) ++ Qopt ++ Fopt) =
      (sch ++ ':' :: path) ++ Qopt ++ Fopt := by
    apply stripUnsafe_id
    intro c hc
    rcases List.mem_append.mp hc with hc | hc
    · rcases List.mem_append.mp hc with hc | hc
      · rcases List.mem_append.mp hc with hc | hc
        · exact hsch_tab c hc
        · rcases List.mem_cons.mp hc with rfl | hc
          · simp
          · exact hp_tab c hc
      · exact hQ_clean c hc
    · exact hF_clean c hc
  have hsplit : schemeSplit (stripUnsafe (stripC0 d))
      ((sch ++ ':' :: path) ++ Qopt ++ Fopt) =
      (sch, path ++ Qopt ++ Fopt) := by
    have hassoc : (sch ++ ':' :: path) ++ Qopt ++ Fopt =
        sch ++ ':' :: (path ++ Qopt ++ Fopt) := by
      simp [List.append_assoc]
    rw [hassoc, schemeSplit_explicit _ _ _ hsch_ne hsch_colon hsch_head hsch_all,
      hsch_lower]
  have htake : (path ++ Qopt ++ Fopt).take 2 ≠ lit "//" := by
    cases path with
    | nil =>
      cases hqf : Qopt ++ Fopt with
      | nil => simp [hqf, lit]
      | cons x rest =>
        rcases hQF_head x rest hqf with rfl | rfl
        · cases rest with
          | nil => simp [hqf, lit]
          | cons y r2 => simp [hqf, lit]
        · cases rest with
          | nil => simp [hqf, lit]
          | cons y r2 => simp [hqf, lit]
    | cons p0 prest =>
      cases prest with
      | nil =>
        cases hqf : Qopt ++ Fopt with
        | nil => simp [hqf, lit]
        | cons x rest =>
          rcases hQF_head x rest hqf with rfl | rfl
          · simp [hqf, lit]
          · simp [hqf, lit]
      | cons p1 p2rest =>
        intro hcontra
        apply hp2
        simp only [List.cons_append, List.take] at hcontra ⊢
        simpa using hcontra
  have hfragstep : (match splitOnceChar '#' (path ++ Qopt ++ Fopt) with
      | some (a, b) => (a, b)
      | none => (path ++ Qopt ++ Fopt, ([] : Str))) = (path ++ Qopt, frag) := by
    rw [hF]
    by_cases hf0 : frag ≠ []
    · rw [if_pos hf0]
      have hnomem : '#' ∉ path ++ Qopt := by
        simp only [List.mem_append, not_or]
        exact ⟨hp_h, hQ_hash⟩
      rw [show path ++ Qopt ++ '#' :: frag = (path ++ Qopt) ++ '#' :: frag from by
        simp [List.append_assoc]]
      rw [splitOnceChar_append '#' _ _ hnomem]
    · rw [if_neg hf0]
      push_neg at hf0
      subst hf0
      have hnomem : '#' ∉ path ++ Qopt ++ [] := by
        simp only [List.append_nil, List.mem_append, not_or]
        exact ⟨hp_h, hQ_hash⟩
      rw [splitOnceChar_not_mem '#' _ hnomem]
      simp
  have hquerystep : (match splitOnceChar '?' (path ++ Qopt) with
      | some (a, b) => (a, b)
      | none => (path ++ Qopt, ([] : Str))) = (path, query) := by
    rw [hQ]
    by_cases hq0 : query ≠ []
    · rw [if_pos hq0]
      rw [splitOnceChar_append '?' _ _ hp_q]
    · rw [if_neg hq0]
      push_neg at hq0
      subst hq0
      rw [List.append_nil, splitOnceChar_not_mem '?' _ hp_q]
  have hL : lstripC0 ((sch ++ ':' :: path) ++ Qopt ++ Fopt) =
      (sch ++ ':' :: path) ++ Qopt ++ Fopt := by
    rw [show (sch ++ ':' :: path) ++ Qopt ++ Fopt =
      sch ++ (':' :: path ++ Qopt ++ Fopt) from by simp [List.append_assoc]]
    exact lstripC0_append_alpha sch _ hsch_ne hsch_head
  unfold urlsplit
  rw [hL, hW]
  dsimp only
  rw [hsplit]
  dsimp only
  rw [if_neg htake]
  dsimp only
  rw [if_neg (by decide : ¬(netlocBad ([] : Str) = true))]
  rw [hfragstep]
  dsimp only
  rw [hquerystep]

theorem char_toNat_inj {a b : Char} (h : a.toNat = b.toNat) : a = b := by
  apply Char.ext
  apply UInt32.ext
  simpa [UInt32.toNat, Char.toNat] using h

theorem lexLt_total : ∀ a b : Str, a ≠ b → lexLt a b = true ∨ lexLt b a = true := by
  intro a
  induction a with
  | nil =>
    intro b hne
    cases b with
    | nil => exact absurd rfl hne
    | cons y ys => exact Or.inl rfl
  | cons x xs ih =>
    intro b hne
    cases b with
    | nil => exact Or.inr rfl
    | cons y ys =>
      by_cases hlt : x.toNat < y.toNat
      · left
        simp only [lexLt, if_pos hlt]
      · by_cases heq : x = y
        · subst heq
        -- wait subst direction
          have hxs : xs ≠ ys := fun h => hne (by rw [h])
          rcases ih ys hxs with h | h
          · left
            simp only [lexLt, if_neg hlt, if_pos rfl]
            exact h
          · right
            simp only [lexLt, if_neg hlt, if_pos rfl]
            exact h
        · right
          have hyx : y.toNat < x.toNat := by
            rcases Nat.lt_trichotomy x.toNat y.toNat with h | h | h
            · exact absurd h hlt
            · exact absurd (char_toNat_inj h) heq
            · exact h
          simp only [lexLt, if_pos hyx]

theorem lexLt_trans : ∀ a b c : Str, lexLt a b = true → lexLt b c = true →
    lexLt a c = true := by
  intro a
  induction a with
  | nil =>
    intro b c hab hbc
    cases b with
    | nil => simp [lexLt] at hab
    | cons y ys =>
      cases c with
      | nil => simp [lexLt] at hbc
      | cons z zs => rfl
  | cons x xs ih =>
    intro b c hab hbc
    cases b with
    | nil => simp [lexLt] at hab
    | cons y ys =>
      cases c with
      | nil => simp [lexLt] at hbc
      | cons z zs =>
        simp only [lexLt] at hab hbc ⊢
        by_cases hxy : x.toNat < y.toNat
        · by_cases hyz : y.toNat < z.toNat
          · rw [if_pos (Nat.lt_trans hxy hyz)]
          · rw [if_neg hyz] at hbc
            by_cases hyz2 : y = z
            · subst hyz2
              rw [if_pos hxy]
            · rw [if_neg hyz2] at hbc
              exact absurd hbc (by simp)
        · rw [if_neg hxy] at hab
          by_cases hxy2 : x = y
          · subst hxy2
            rw [if_pos rfl] at hab
            by_cases hxz : x.toNat < z.toNat
            · rw [if_pos hxz]
            · rw [if_neg hxz] at hbc ⊢
              by_cases hxz2 : x = z
              · subst hxz2
                rw [if_pos rfl] at hbc ⊢
                exact ih ys zs hab hbc
              · rw [if_neg hxz2] at hbc
                exact absurd hbc (by simp)
          · rw [if_neg hxy2] at hab
            exact absurd hab (by simp)

theorem insertLe_perm (x : Str) : ∀ l : List Str, (insertLe x l).Perm (x :: l) := by
  intro l
  induction l with
  | nil => exact List.Perm.refl _
  | cons y ys ih =>
    simp only [insertLe]
    split
    · exact ((ih.cons y).trans (List.Perm.swap x y ys))
    · exact List.Perm.refl _

theorem pySorted_perm : ∀ l : List Str, (pySorted l).Perm l := by
  intro l
  induction l with
  | nil => exact List.Perm.refl _
  | cons x xs ih =>
    simp only [pySorted]
    exact (insertLe_perm x (pySorted xs)).trans (ih.cons x)

theorem insertLe_pairwise (x : Str) :
    ∀ l : List Str, l.Pairwise (fun a b => lexLt a b = true) →
      (∀ y ∈ l, y ≠ x) →
      (insertLe x l).Pairwise (fun a b => lexLt a b = true) := by
  intro l
  induction l with
  | nil =>
    intro _ _
    simp [insertLe]
  | cons y ys ih =>
    intro hpw hne
    rcases List.pairwise_cons.mp hpw with ⟨hyall, hys⟩
    simp only [insertLe]
    split
    · rename_i hyx
      refine List.pairwise_cons.mpr ⟨?_, ih hys (fun z hz => hne z (List.mem_cons_of_mem y hz))⟩
      intro z hz
      have := (insertLe_perm x ys).mem_iff.mp hz
      rcases List.mem_cons.mp this with rfl | hzys
      · exact hyx
      · exact hyall z hzys
    · rename_i hyx
      have hxy : lexLt x y = true := by
        rcases lexLt_total x y (fun h => hne y (List.mem_cons_self y ys) h.symm) with h | h
        · exact h
        · exact absurd h hyx
      refine List.pairwise_cons.mpr ⟨?_, hpw⟩
      intro z hz
      rcases List.mem_cons.mp hz with rfl | hzys
      · exact hxy
      · exact lexLt_trans x y z hxy (hyall z hzys)

theorem pySorted_pairwise : ∀ l : List Str, l.Nodup →
    (pySorted l).Pairwise (fun a b => lexLt a b = true) := by
  intro l
  induction l with
  | nil =>
    intro _
    simp [pySorted]
  | cons x xs ih =>
    intro hnd
    rcases List.nodup_cons.mp hnd with ⟨hx, hxs⟩
    simp only [pySorted]
    refine insertLe_pairwise x (pySorted xs) (ih hxs) ?_
    intro y hy hyx
    exact hx (hyx ▸ (pySorted_perm xs).mem_iff.mp hy)

theorem dedupBy_sublist {α β : Type} [DecidableEq β] (key : α → β) :
    ∀ (l : List α) (seen : List β), (dedupBy key l seen).Sublist l := by
  intro l
  induction l with
  | nil =>
    intro seen
    simp [dedupBy]
  | cons x xs ih =>
    intro seen
    simp only [dedupBy]
    split
    · exact (ih seen).cons x
    · exact (ih (key x :: seen)).cons₂ x

theorem dedupBy_keys_nodup {α β : Type} [DecidableEq β] (key : α → β) :
    ∀ (l : List α) (seen : List β),
      ((dedupBy key l seen).map key).Nodup ∧
      ∀ b ∈ (dedupBy key l seen).map key, b ∉ seen := by
  intro l
  induction l with
  | nil =>
    intro seen
    simp [dedupBy]
  | cons x xs ih =>
    intro seen
    simp only [dedupBy]
    split
    · exact ih seen
    · rename_i hxs
      obtain ⟨hnd, hnotin⟩ := ih (key x :: seen)
      refine ⟨?_, ?_⟩
      · simp only [List.map_cons, List.nodup_cons]
        refine ⟨?_, hnd⟩
        intro hmem
        exact hnotin (key x) hmem (List.mem_cons_self _ _)
      · intro b hb
        simp only [List.map_cons, List.mem_cons] at hb
        rcases hb with rfl | hb
        · exact hxs
        · intro hbseen
          exact hnotin b hb (List.mem_cons_of_mem _ hbseen)

theorem dedupBy_find {α β : Type} [DecidableEq β] (key : α → β) :
    ∀ (l : List α) (seen : List β) (m : α), m ∈ dedupBy key l seen →
      key m ∉ seen ∧ l.find? (fun x => decide (key x = key m)) = some m := by
  intro l
  induction l with
  | nil =>
    intro seen m hm
    simp [dedupBy] at hm
  | cons x xs ih =>
    intro seen m hm
    simp only [dedupBy] at hm
    split at hm
    · rename_i hxseen
      obtain ⟨hnot, hfind⟩ := ih seen m hm
      refine ⟨hnot, ?_⟩
      have hne : ¬(key x = key m) := by
        intro h
        exact hnot (h ▸ hxseen)
      rw [List.find?_cons_of_neg _ (by simpa using hne)]
      exact hfind
    · rename_i hxseen
      rcases List.mem_cons.mp hm with rfl | hm
      · exact ⟨hxseen, by rw [List.find?_cons_of_pos _ (by simp)]⟩
      · obtain ⟨hnot, hfind⟩ := ih (key x :: seen) m hm
        have hne : ¬(key x = key m) := by
          intro h
          exact hnot (h ▸ List.mem_cons_self _ _)
        refine ⟨fun hseen => hnot (List.mem_cons_of_mem _ hseen), ?_⟩
        rw [List.find?_cons_of_neg _ (by simpa using hne)]
        exact hfind

theorem dedupId_mem :
    ∀ (l : List Str) (seen : List Str) (a : Str), a ∈ l → a ∉ seen →
      a ∈ dedupBy id l seen := by
  intro l
  induction l with
  | nil =>
    intro seen a ha _
    simp at ha
  | cons x xs ih =>
    intro seen a ha hseen
    simp only [dedupBy]
    split
    · rename_i hxseen
      rcases List.mem_cons.mp ha with rfl | ha
      · exact absurd hxseen hseen
      · exact ih seen a ha hseen
    · rcases List.mem_cons.mp ha with rfl | ha
      · exact List.mem_cons_self _ _
      · by_cases hax : a = x
        · subst hax
          exact List.mem_cons_self _ _
        · exact List.mem_cons_of_mem x
            (ih (id x :: seen) a ha (by
              intro hmem
              rcases List.mem_cons.mp hmem with h | h
              · exact hax h
              · exact hseen h))

theorem parse_categoriesGo_mem :
    ∀ (hs : List Str) (cats : List Cat), parse_categoriesGo hs = some cats →
      ∀ cat ∈ cats, ∃ href, href ∈ hs ∧
        strStarts (lit "/midis/") href = true ∧ href ≠ lit "/midis" ∧
        extSearch href = false ∧ urljoin BASE href = some cat.url ∧
        cat.name = catName href := by
  intro hs
  induction hs with
  | nil =>
    intro cats h cat hc
    simp only [parse_categoriesGo, Option.some.injEq] at h
    subst h
    simp at hc
  | cons href rest ih =>
    intro cats h cat hc
    simp only [parse_categoriesGo] at h
    by_cases h1 : strStarts (lit "/midis/") href = true
    · rw [if_pos h1] at h
      by_cases h2 : href = lit "/midis"
      · rw [if_pos h2] at h
        obtain ⟨href', hmem, hp⟩ := ih cats h cat hc
        exact ⟨href', List.mem_cons_of_mem _ hmem, hp⟩
      · rw [if_neg h2] at h
        by_cases h3 : extSearch href = true
        · rw [if_pos h3] at h
          obtain ⟨href', hmem, hp⟩ := ih cats h cat hc
          exact ⟨href', List.mem_cons_of_mem _ hmem, hp⟩
        · rw [if_neg h3] at h
          simp only [bind, Option.bind] at h
          rcases hj : urljoin BASE href with _ | url
          · rw [hj] at h
            exact absurd h (by simp)
          · rw [hj] at h
            dsimp only at h
            rcases hrest : parse_categoriesGo rest with _ | cats'
            · rw [hrest] at h
              exact absurd h (by simp)
            · rw [hrest] at h
              simp only [Option.pure_def, Option.some.injEq] at h
              subst h
              rcases List.mem_cons.mp hc with rfl | hc
              · exact ⟨href, List.mem_cons_self _ _, h1, h2,
                  by simpa using h3, hj, rfl⟩
              · obtain ⟨href', hmem, hp⟩ := ih cats' hrest cat hc
                exact ⟨href', List.mem_cons_of_mem _ hmem, hp⟩
    · rw [if_neg h1] at h
      obtain ⟨href', hmem, hp⟩ := ih cats h cat hc
      exact ⟨href', List.mem_cons_of_mem _ hmem, hp⟩

theorem parse_midisGo_mem (cat : Str) :
    ∀ (hrefs : List Str) (out : List Midi), parse_midisGo cat hrefs = some out →
      ∀ m ∈ out, m.category_name = cat ∧ ∃ href, href ∈ hrefs ∧
        extSearch href = true ∧ normalize_url href = some m.url ∧
        ∃ pr, urlparse [] m.url = some pr ∧
          m.title = unquote (pyBasename pr.1.path) := by
  intro hrefs
  induction hrefs with
  | nil =>
    intro out h m hm
    simp only [parse_midisGo, Option.some.injEq] at h
    subst h
    simp at hm
  | cons href rest ih =>
    intro out h m hm
    simp only [parse_midisGo] at h
    by_cases h1 : extSearch href = true
    · rw [if_pos h1] at h
      simp only [bind, Option.bind] at h
      rcases hn : normalize_url href with _ | url
      · rw [hn] at h
        exact absurd h (by simp)
      · rw [hn] at h
        dsimp only at h
        rcases hpr : urlparse [] url with _ | pr
        · rw [hpr] at h
          exact absurd h (by simp)
        · rw [hpr] at h
          dsimp only at h
          rcases hrest : parse_midisGo cat rest with _ | out'
          · rw [hrest] at h
            exact absurd h (by simp)
          · rw [hrest] at h
            simp only [Option.pure_def, Option.some.injEq] at h
            subst h
            rcases List.mem_cons.mp hm with rfl | hm
            · exact ⟨rfl, href, List.mem_cons_self _ _, h1, hn, pr, hpr, rfl⟩
            · obtain ⟨hcat, href', hmem, hp⟩ := ih out' hrest m hm
              exact ⟨hcat, href', List.mem_cons_of_mem _ hmem, hp⟩
    · rw [if_neg h1] at h
      obtain ⟨hcat, href', hmem, hp⟩ := ih out h m hm
      exact ⟨hcat, href', List.mem_cons_of_mem _ hmem, hp⟩

/-- C8, counterexample: category extraction does NOT deduplicate by resolved
URL (the `set` dedup is on raw href strings, so two hrefs resolving to the
same URL yield two entries), and the returned urls are joined but NOT
normalized (a space survives unencoded). -/
theorem parse_categories_counterexample :
    (parse_categories (lit "href=\"/midis/./a\" href=\"/midis/a\"") =
      some [⟨lit "./a", lit "https://animezen.net/midis/a"⟩,
            ⟨lit "a", lit "https://animezen.net/midis/a"⟩]) ∧
    (parse_categories (lit "href=\"/midis/a b\"") =
        some [⟨lit "a b", lit "https://animezen.net/midis/a b"⟩] ∧
      normalize_url (lit "https://animezen.net/midis/a b") =
        some (lit "https://animezen.net/midis/a%20b")) := by
  exact ⟨by decide, by decide, by decide⟩

/-- C8 (amended): `parse_categories` processes the strictly-sorted
deduplicated href list (dedup by raw href, order by sorted href string);
every returned entry comes from an href that starts with `/midis/`, is not
the bare index, does not match the MIDI-extension pattern, resolves via
`urljoin` to the entry's url, and names the entry from its path; and the
evangelion/boo.mid scenario returns exactly the one category entry. -/
theorem parse_categories_spec :
    (∀ html cats, parse_categories html = some cats →
      (∃ hs, (∀ x, x ∈ hs ↔ x ∈ findHrefs html) ∧
        hs.Pairwise (fun a b => lexLt a b = true) ∧
        parse_categoriesGo hs = some cats) ∧
      ∀ cat ∈ cats, ∃ href, href ∈ findHrefs html ∧
        strStarts (lit "/midis/") href = true ∧ href ≠ lit "/midis" ∧
        extSearch href = false ∧ urljoin BASE href = some cat.url ∧
        cat.name = catName href) ∧
    parse_categories (lit "href=\"/midis/evangelion\" href=\"/midis/boo.mid\"") =
      some [⟨lit "evangelion", lit "https://animezen.net/midis/evangelion"⟩] := by
  constructor
  · intro html cats h
    have hmemiff : ∀ x, x ∈ pySorted (dedupKeyed id (findHrefs html)) ↔
        x ∈ findHrefs html := by
      intro x
      rw [(pySorted_perm _).mem_iff]
      constructor
      · intro hx
        exact (dedupBy_sublist id _ []).subset hx
      · intro hx
        exact dedupId_mem _ [] x hx (by simp)
    constructor
    · refine ⟨pySorted (dedupKeyed id (findHrefs html)), hmemiff, ?_, h⟩
      apply pySorted_pairwise
      have := (dedupBy_keys_nodup id (findHrefs html) []).1
      simpa using this
    · intro cat hc
      obtain ⟨href, hmem, hp⟩ := parse_categoriesGo_mem _ cats h cat hc
      exact ⟨href, (hmemiff href).mp hmem, hp⟩
  · decide

/-- Witness for C8: a one-link index page, with the amended properties
instantiated on it. -/
theorem parse_categories_spec_witness :
    parse_categories (lit "href=\"/midis/x\"") =
      some [⟨lit "x", lit "https://animezen.net/midis/x"⟩] ∧
    ((∃ hs, (∀ x, x ∈ hs ↔ x ∈ findHrefs (lit "href=\"/midis/x\"")) ∧
        hs.Pairwise (fun a b => lexLt a b = true) ∧
        parse_categoriesGo hs =
          some [⟨lit "x", lit "https://animezen.net/midis/x"⟩]) ∧
      ∀ cat ∈ [(⟨lit "x", lit "https://animezen.net/midis/x"⟩ : Cat)],
        ∃ href, href ∈ findHrefs (lit "href=\"/midis/x\"") ∧
          strStarts (lit "/midis/") href = true ∧ href ≠ lit "/midis" ∧
          extSearch href = false ∧ urljoin BASE href = some cat.url ∧
          cat.name = catName href) :=
  ⟨by decide,
    parse_categories_spec.1 (lit "href=\"/midis/x\"")
      [⟨lit "x", lit "https://animezen.net/midis/x"⟩] (by decide)⟩

/-- C9: `parse_midis` keeps only hrefs matching the extension pattern,
normalizes each to its url, titles each entry from the decoded
parameter-free path basename, and never returns two entries with the same
normalized url — the first occurrence wins (`find?` on the pre-dedup list
returns exactly the kept entry) and first-seen order is preserved (the
result is a sublist of the pre-dedup list). -/
theorem parse_midis_spec (html cat : Str) (midis : List Midi)
    (h : parse_midis html cat = some midis) :
    (midis.map Midi.url).Nodup ∧
    (∀ m ∈ midis, m.category_name = cat ∧ ∃ href, href ∈ findHrefs html ∧
      extSearch href = true ∧ normalize_url href = some m.url ∧
      ∃ pr, urlparse [] m.url = some pr ∧
        m.title = unquote (pyBasename pr.1.path)) ∧
    ∃ all, parse_midisGo cat (findHrefs html) = some all ∧
      midis.Sublist all ∧
      ∀ m ∈ midis, all.find? (fun x => decide (x.url = m.url)) = some m := by
  unfold parse_midis at h
  simp only [bind, Option.bind] at h
  rcases hall : parse_midisGo cat (findHrefs html) with _ | all
  · rw [hall] at h
    exact absurd h (by simp)
  · rw [hall] at h
    simp only [Option.pure_def, Option.some.injEq] at h
    subst h
    refine ⟨(dedupBy_keys_nodup Midi.url all []).1, ?_, all, rfl,
      dedupBy_sublist Midi.url all [], ?_⟩
    · intro m hm
      exact parse_midisGo_mem cat _ all hall m
        ((dedupBy_sublist Midi.url all []).subset hm)
    · intro m hm
      exact (dedupBy_find Midi.url all [] m hm).2

/-- Witness for C9: a two-link page whose second link duplicates the first
link's normalized url, with the dedup/order/title properties instantiated. -/
theorem parse_midis_spec_witness :
    parse_midis (lit "href=\"/midis/a.mid\" href=\"/midis/./a.mid\"") (lit "c") =
      some [⟨lit "c", lit "a.mid", lit "https://animezen.net/midis/a.mid"⟩] ∧
    ((([(⟨lit "c", lit "a.mid", lit "https://animezen.net/midis/a.mid"⟩ : Midi)]).map
        Midi.url).Nodup ∧
      (∀ m ∈ [(⟨lit "c", lit "a.mid", lit "https://animezen.net/midis/a.mid"⟩ : Midi)],
        m.category_name = lit "c" ∧ ∃ href,
          href ∈ findHrefs (lit "href=\"/midis/a.mid\" href=\"/midis/./a.mid\"") ∧
          extSearch href = true ∧ normalize_url href = some m.url ∧
          ∃ pr, urlparse [] m.url = some pr ∧
            m.title = unquote (pyBasename pr.1.path)) ∧
      ∃ all, parse_midisGo (lit "c")
          (findHrefs (lit "href=\"/midis/a.mid\" href=\"/midis/./a.mid\"")) = some all ∧
        List.Sublist [(⟨lit "c", lit "a.mid", lit "https://animezen.net/midis/a.mid"⟩ : Midi)] all ∧
        ∀ m ∈ [(⟨lit "c", lit "a.mid", lit "https://animezen.net/midis/a.mid"⟩ : Midi)],
          all.find? (fun x => decide (x.url = m.url)) = some m) :=
  ⟨by decide,
    parse_midis_spec (lit "href=\"/midis/a.mid\" href=\"/midis/./a.mid\"") (lit "c")
      [⟨lit "c", lit "a.mid", lit "https://animezen.net/midis/a.mid"⟩] (by decide)⟩
